import Mathlib

/-!
Verification of the Coursera course scraper (main.py) against its
natural-language specification.

The pure text-processing functions (clean_text, normalize_level,
extract_duration_like, parse_duration_from_text) are embedded directly.
The DOM-dependent functions (collect_all_course_cards, parse_course_detail,
scrape_language, main) are embedded over an explicit document / feed model:
every BeautifulSoup query result that the code consumes becomes an input
field, and all decision logic applied to those query results is translated
from the source.  Strings are modelled as lists of characters; Python
whitespace and case handling are modelled on the ASCII range.
-/

namespace Scraper

/-! ## Character helpers (ASCII model of Python str methods) -/

/-- Whitespace characters recognised by Python's regex class and str.strip,
restricted to the ASCII range. -/
def isWsChar (c : Char) : Bool :=
  c == ' ' || c == '\t' || c == '\n' || c == '\r' ||
  c == Char.ofNat 11 || c == Char.ofNat 12

/-- ASCII lower-casing, the model of Python str.lower. -/
def lowerChar (c : Char) : Char :=
  if 'A' ≤ c && c ≤ 'Z' then Char.ofNat (c.toNat + 32) else c

/-- Lower-case a character list. -/
def lowerL (l : List Char) : List Char := l.map lowerChar

/-- Does the list start with the given pattern (case sensitive)? -/
def startsWithL (pat : List Char) (l : List Char) : Bool :=
  match pat, l with
  | [], _ => true
  | _ :: _, [] => false
  | p :: pr, c :: r => p == c && startsWithL pr r

/-- Python substring containment `sub in l`. -/
def containsL (l : List Char) (sub : List Char) : Bool :=
  match l with
  | [] => startsWithL sub []
  | _ :: r => startsWithL sub l || containsL r sub

/-! ## clean_text -/

/-- Worker for `re.sub(r"\s+", " ", s)`: the flag records whether the
previous character was whitespace (so a continuing run emits nothing). -/
def collapseGo : Bool → List Char → List Char
  | _, [] => []
  | prevWs, c :: r =>
    if isWsChar c then
      if prevWs then collapseGo true r else ' ' :: collapseGo true r
    else c :: collapseGo false r

/-- `re.sub(r"\s+", " ", s)`: every maximal whitespace run becomes one
single space. -/
def collapseWs (l : List Char) : List Char := collapseGo false l

/-- Leading-whitespace removal (half of Python str.strip). -/
def trimLeadWs (l : List Char) : List Char := l.dropWhile (fun c => isWsChar c)

/-- Trailing-whitespace removal (the other half of Python str.strip). -/
def trimTrailWs : List Char → List Char
  | [] => []
  | c :: r =>
    if (trimTrailWs r).isEmpty then (if isWsChar c then [] else [c])
    else c :: trimTrailWs r

/-- Python str.strip on a character list. -/
def stripWs (l : List Char) : List Char := trimTrailWs (trimLeadWs l)

/-- main.py line 45: `clean_text(s)` collapses whitespace runs and strips;
`None` becomes the empty string. -/
def clean_text (s : Option String) : String :=
  String.mk (stripWs (collapseWs (s.getD "").data))

/-! ## normalize_level -/

/-- main.py line 48: case-insensitive keyword lookup, beginner before
intermediate before advanced. -/
def normalize_level (text : String) : Option String :=
  let t := lowerL text.data
  if containsL t "beginner".data then some "Beginner"
  else if containsL t "intermediate".data then some "Intermediate"
  else if containsL t "advanced".data then some "Advanced"
  else none

/-! ## Facts about clean_text -/

theorem collapseGo_ws_eq_space :
    ∀ (b : Bool) (l : List Char), ∀ c ∈ collapseGo b l, isWsChar c → c = ' ' := by
  intro b l
  induction l generalizing b with
  | nil => intro c hc; simp [collapseGo] at hc
  | cons a r ih =>
    intro c hc hcw
    by_cases ha : isWsChar a = true
    · cases b with
      | true =>
        simp only [collapseGo, ha, if_true] at hc
        exact ih true c hc hcw
      | false =>
        simp only [collapseGo, ha, if_true, if_false] at hc
        rcases List.mem_cons.mp hc with h | h
        · exact h
        · exact ih true c h hcw
    · simp only [collapseGo, ha, if_false] at hc
      rcases List.mem_cons.mp hc with h | h
      · subst h; exact absurd hcw ha
      · exact ih false c h hcw

/-- No two adjacent whitespace characters. -/
def adjOk : List Char → Prop
  | [] => True
  | [_] => True
  | a :: b :: r => ¬(isWsChar a = true ∧ isWsChar b = true) ∧ adjOk (b :: r)

theorem adjOk_tail {c : Char} {l : List Char} (h : adjOk (c :: l)) : adjOk l := by
  cases l with
  | nil => trivial
  | cons b r => exact h.2

theorem adjOk_cons {c : Char} {l : List Char} (hne : ¬ isWsChar c = true)
    (h : adjOk l) : adjOk (c :: l) := by
  cases l with
  | nil => trivial
  | cons b r => exact ⟨fun hh => hne hh.1, h⟩

/-- In the true state the next output character is never whitespace. -/
theorem collapseGo_true_head :
    ∀ l : List Char, collapseGo true l = [] ∨
      ∃ c r, collapseGo true l = c :: r ∧ ¬ isWsChar c = true := by
  intro l
  induction l with
  | nil => left; simp [collapseGo]
  | cons a r ih =>
    by_cases ha : isWsChar a = true
    · simp only [collapseGo, ha, if_true]
      exact ih
    · right
      exact ⟨a, collapseGo false r, by simp [collapseGo, ha], ha⟩

theorem collapseGo_adjOk : ∀ (b : Bool) (l : List Char), adjOk (collapseGo b l) := by
  intro b l
  induction l generalizing b with
  | nil => simp [collapseGo]; trivial
  | cons a r ih =>
    by_cases ha : isWsChar a = true
    · cases b with
      | true => simp only [collapseGo, ha, if_true]; exact ih true
      | false =>
        simp only [collapseGo, ha, if_true, if_false]
        rcases collapseGo_true_head r with h | ⟨c, r', h, hc⟩
        · rw [h]; trivial
        · rw [h]
          refine ⟨fun hh => hc hh.2, ?_⟩
          rw [← h]; exact ih true
    · simp only [collapseGo, ha, if_false]
      exact adjOk_cons ha (ih false)

/-- When the head is non-whitespace (or the list empty) the two states of
the collapse worker agree. -/
theorem collapseGo_true_eq_false {l : List Char}
    (h : l = [] ∨ ∃ c r, l = c :: r ∧ ¬ isWsChar c = true) :
    collapseGo true l = collapseGo false l := by
  rcases h with h | ⟨c, r, h, hc⟩
  · subst h; rfl
  · subst h; simp [collapseGo, hc]

/-- collapseWs is the identity on lists whose whitespace characters are all
single spaces with no two adjacent. -/
theorem collapseGo_false_eq_self :
    ∀ l : List Char, (∀ c ∈ l, isWsChar c → c = ' ') → adjOk l →
    collapseGo false l = l := by
  intro l
  induction l with
  | nil => intro _ _; rfl
  | cons a r ih =>
    intro hall hadj
    by_cases ha : isWsChar a = true
    · have haz : a = ' ' := hall a (by simp) ha
      have hr : collapseGo true r = collapseGo false r := by
        apply collapseGo_true_eq_false
        cases r with
        | nil => left; rfl
        | cons b r' =>
          right
          exact ⟨b, r', rfl, fun hb => hadj.1 ⟨ha, hb⟩⟩
      have hstep : collapseGo false (a :: r) = ' ' :: collapseGo true r := by
        simp [collapseGo, ha]
      rw [hstep, hr, ih (fun d hd => hall d (by simp [hd])) (adjOk_tail hadj), haz]
    · have hstep : collapseGo false (a :: r) = a :: collapseGo false r := by
        simp [collapseGo, ha]
      rw [hstep, ih (fun d hd => hall d (by simp [hd])) (adjOk_tail hadj)]

theorem trimLeadWs_sub {l : List Char} : ∀ c ∈ trimLeadWs l, c ∈ l := by
  intro c hc
  induction l with
  | nil => simp [trimLeadWs] at hc
  | cons a r ih =>
    by_cases ha : isWsChar a = true
    · have : trimLeadWs (a :: r) = trimLeadWs r := by
        simp [trimLeadWs, List.dropWhile, ha]
      rw [this] at hc
      exact List.mem_cons_of_mem a (ih hc)
    · have : trimLeadWs (a :: r) = a :: r := by
        simp [trimLeadWs, List.dropWhile, ha]
      rw [this] at hc
      exact hc

theorem trimTrailWs_sub : ∀ l : List Char, ∀ c ∈ trimTrailWs l, c ∈ l := by
  intro l
  induction l with
  | nil => intro c hc; simp [trimTrailWs] at hc
  | cons a r ih =>
    intro c hc
    cases htr : trimTrailWs r with
    | nil =>
      by_cases ha : isWsChar a = true
      · simp [trimTrailWs, htr, ha] at hc
      · simp [trimTrailWs, htr, ha] at hc; simp [hc]
    | cons b r' =>
      simp [trimTrailWs, htr] at hc
      rcases hc with h | h | h
      · simp [h]
      · subst h
        exact List.mem_cons_of_mem a (ih c (by rw [htr]; exact List.mem_cons_self c r'))
      · exact List.mem_cons_of_mem a (ih c (by rw [htr]; exact List.mem_cons_of_mem b h))

theorem trimLeadWs_adjOk {l : List Char} (h : adjOk l) : adjOk (trimLeadWs l) := by
  induction l with
  | nil => trivial
  | cons c r ih =>
    by_cases hws : isWsChar c = true
    · have : trimLeadWs (c :: r) = trimLeadWs r := by
        simp [trimLeadWs, List.dropWhile, hws]
      rw [this]; exact ih (adjOk_tail h)
    · have : trimLeadWs (c :: r) = c :: r := by
        simp [trimLeadWs, List.dropWhile, hws]
      rw [this]; exact h

/-- trimTrailWs keeps the head of a nonempty result equal to the head of
its input. -/
theorem trimTrailWs_head : ∀ (l : List Char) (b : Char) (r' : List Char),
    trimTrailWs l = b :: r' → ∃ rr, l = b :: rr := by
  intro l b r' h
  cases l with
  | nil => simp [trimTrailWs] at h
  | cons x rr =>
    cases h2 : trimTrailWs rr with
    | nil =>
      by_cases hx : isWsChar x = true
      · simp [trimTrailWs, h2, hx] at h
      · simp [trimTrailWs, h2, hx] at h
        exact ⟨rr, by rw [h.1]⟩
    | cons y rr' =>
      simp [trimTrailWs, h2] at h
      exact ⟨rr, by rw [h.1]⟩

theorem trimTrailWs_adjOk : ∀ l : List Char, adjOk l → adjOk (trimTrailWs l) := by
  intro l
  induction l with
  | nil => intro h; trivial
  | cons c r ih =>
    intro h
    cases htr : trimTrailWs r with
    | nil =>
      by_cases hws : isWsChar c = true
      · have hstep : trimTrailWs (c :: r) = [] := by simp [trimTrailWs, htr, hws]
        rw [hstep]; trivial
      · have hstep : trimTrailWs (c :: r) = [c] := by simp [trimTrailWs, htr, hws]
        rw [hstep]; trivial
    | cons b r' =>
      have hstep : trimTrailWs (c :: r) = c :: b :: r' := by simp [trimTrailWs, htr]
      rw [hstep]
      have hradj : adjOk (b :: r') := htr ▸ ih (adjOk_tail h)
      rcases trimTrailWs_head r b r' htr with ⟨rr, hr⟩
      subst hr
      exact ⟨fun hh => h.1 ⟨hh.1, hh.2⟩, hradj⟩

/-- trimLeadWs output starts with non-whitespace. -/
theorem trimLeadWs_head {l : List Char} {c : Char} {r : List Char}
    (h : trimLeadWs l = c :: r) : ¬ isWsChar c = true := by
  induction l with
  | nil => simp [trimLeadWs] at h
  | cons a rr ih =>
    by_cases ha : isWsChar a = true
    · have : trimLeadWs (a :: rr) = trimLeadWs rr := by
        simp [trimLeadWs, List.dropWhile, ha]
      rw [this] at h
      exact ih h
    · have : trimLeadWs (a :: rr) = a :: rr := by
        simp [trimLeadWs, List.dropWhile, ha]
      rw [this] at h
      have : c = a := (List.cons.injEq _ _ _ _ ▸ h).1.symm
      rw [this]; exact ha

/-- trimTrailWs is the identity on lists not ending in whitespace. -/
theorem trimTrailWs_eq_self : ∀ l : List Char,
    (l = [] ∨ ∃ l' c, l = l' ++ [c] ∧ ¬ isWsChar c = true) →
    trimTrailWs l = l := by
  intro l
  induction l with
  | nil => intro _; rfl
  | cons a r ih =>
    intro h
    rcases h with h | ⟨l', c, h, hc⟩
    · simp at h
    · cases l' with
      | nil =>
        simp at h
        rcases h with ⟨ha, hr⟩
        subst ha; subst hr
        simp [trimTrailWs, hc]
      | cons x l'' =>
        simp at h
        rcases h with ⟨hax, hr⟩
        have hr' : trimTrailWs r = r := ih (Or.inr ⟨l'', c, hr, hc⟩)
        have hcond : ¬ ((trimTrailWs r).isEmpty = true) := by
          rw [hr', hr]; simp
        simp only [trimTrailWs]
        rw [if_neg hcond, hr']

/-- trimTrailWs output never ends in whitespace. -/
theorem trimTrailWs_last : ∀ l : List Char,
    trimTrailWs l = [] ∨
    ∃ l' c, trimTrailWs l = l' ++ [c] ∧ ¬ isWsChar c = true := by
  intro l
  induction l with
  | nil => left; rfl
  | cons a r ih =>
    cases htr : trimTrailWs r with
    | nil =>
      by_cases ha : isWsChar a = true
      · left; simp [trimTrailWs, htr, ha]
      · right; exact ⟨[], a, by simp [trimTrailWs, htr, ha], ha⟩
    | cons b r' =>
      right
      rcases ih with hih | ⟨l', c, hl', hc⟩
      · rw [htr] at hih; simp at hih
      · rw [htr] at hl'
        refine ⟨a :: l', c, ?_, hc⟩
        have hstep : trimTrailWs (a :: r) = a :: b :: r' := by simp [trimTrailWs, htr]
        rw [hstep, hl']
        simp

theorem stripWs_sub {l : List Char} : ∀ c ∈ stripWs l, c ∈ l := by
  intro c hc
  exact trimLeadWs_sub c (trimTrailWs_sub (trimLeadWs l) c hc)

theorem stripWs_adjOk {l : List Char} (h : adjOk l) : adjOk (stripWs l) :=
  trimTrailWs_adjOk _ (trimLeadWs_adjOk h)

/-- trimLeadWs is the identity when the head is non-whitespace or empty. -/
theorem trimLeadWs_eq_self {l : List Char}
    (h : l = [] ∨ ∃ c r, l = c :: r ∧ ¬ isWsChar c = true) :
    trimLeadWs l = l := by
  rcases h with h | ⟨c, r, h, hc⟩
  · subst h; rfl
  · subst h; simp [trimLeadWs, List.dropWhile, hc]

/-- stripWs output is empty or starts with non-whitespace. -/
theorem stripWs_head (l : List Char) :
    stripWs l = [] ∨ ∃ c r, stripWs l = c :: r ∧ ¬ isWsChar c = true := by
  unfold stripWs
  cases htl : trimLeadWs l with
  | nil => left; rfl
  | cons c r =>
    have hc : ¬ isWsChar c = true := trimLeadWs_head htl
    cases htr : trimTrailWs (c :: r) with
    | nil => left; rfl
    | cons b r' =>
      right
      rcases trimTrailWs_head (c :: r) b r' htr with ⟨rr, hr⟩
      injection hr with h1 h2
      exact ⟨b, r', rfl, by rw [← h1]; exact hc⟩

/-- stripWs output is empty or ends with non-whitespace. -/
theorem stripWs_last (l : List Char) :
    stripWs l = [] ∨
    ∃ l' c, stripWs l = l' ++ [c] ∧ ¬ isWsChar c = true :=
  trimTrailWs_last (trimLeadWs l)

/-- Core of clean_text idempotence. -/
theorem clean_chars_idem (l : List Char) :
    stripWs (collapseWs (stripWs (collapseWs l))) = stripWs (collapseWs l) := by
  have hws : ∀ c ∈ stripWs (collapseWs l), isWsChar c → c = ' ' := by
    intro c hc hcw
    exact collapseGo_ws_eq_space false l c (stripWs_sub c hc) hcw
  have hadj : adjOk (stripWs (collapseWs l)) := stripWs_adjOk (collapseGo_adjOk false l)
  have hcol : collapseWs (stripWs (collapseWs l)) = stripWs (collapseWs l) :=
    collapseGo_false_eq_self _ hws hadj
  rw [hcol]
  have h1 : trimLeadWs (stripWs (collapseWs l)) = stripWs (collapseWs l) :=
    trimLeadWs_eq_self (stripWs_head (collapseWs l))
  have h2 : trimTrailWs (stripWs (collapseWs l)) = stripWs (collapseWs l) :=
    trimTrailWs_eq_self _ (stripWs_last (collapseWs l))
  show trimTrailWs (trimLeadWs (stripWs (collapseWs l))) = stripWs (collapseWs l)
  rw [h1, h2]

/-- Claim C8: clean_text is idempotent, collapses whitespace runs to single
spaces and trims the ends (checked on the spec example), and None input
yields the empty string. -/
theorem claim_C8_clean_text :
    (∀ s : String, clean_text (some (clean_text (some s))) = clean_text (some s)) ∧
    clean_text none = "" ∧
    clean_text (some "a   b\n\tc") = "a b c" := by
  refine ⟨?_, by decide, by decide⟩
  intro s
  exact congrArg String.mk (clean_chars_idem s.data)

/-! ## Facts about normalize_level -/

/-- Claim C9: normalize_level is a case-insensitive substring match against
beginner, intermediate, advanced in that priority order; first match wins;
none when no keyword occurs.  In particular a text containing both
"beginner" and "advanced" yields Beginner. -/
theorem claim_C9_normalize_level :
    (∀ s : String,
      (normalize_level s = some "Beginner" ↔
        containsL (lowerL s.data) "beginner".data = true) ∧
      (normalize_level s = some "Intermediate" ↔
        (containsL (lowerL s.data) "beginner".data = false ∧
         containsL (lowerL s.data) "intermediate".data = true)) ∧
      (normalize_level s = some "Advanced" ↔
        (containsL (lowerL s.data) "beginner".data = false ∧
         containsL (lowerL s.data) "intermediate".data = false ∧
         containsL (lowerL s.data) "advanced".data = true)) ∧
      (normalize_level s = none ↔
        (containsL (lowerL s.data) "beginner".data = false ∧
         containsL (lowerL s.data) "intermediate".data = false ∧
         containsL (lowerL s.data) "advanced".data = false)) ∧
      (containsL (lowerL s.data) "beginner".data = true →
       containsL (lowerL s.data) "advanced".data = true →
       normalize_level s = some "Beginner")) ∧
    normalize_level "This is an Intermediate course" = some "Intermediate" ∧
    normalize_level "no info" = none := by
  refine ⟨?_, by decide, by decide⟩
  intro s
  unfold normalize_level
  cases hb : containsL (lowerL s.data) "beginner".data with
  | true => simp [hb]
  | false =>
    cases hi : containsL (lowerL s.data) "intermediate".data with
    | true => simp [hb, hi]
    | false =>
      cases ha : containsL (lowerL s.data) "advanced".data with
      | true => simp [hb, hi, ha]
      | false => simp [hb, hi, ha]

/-- Witness for claim C9: a string containing both keywords classifies
as Beginner by applying the claim theorem. -/
theorem claim_C9_witness :
    normalize_level "advanced then beginner" = some "Beginner" :=
  ((claim_C9_normalize_level.1 "advanced then beginner").2.2.2.2)
    (by decide) (by decide)

/-! ## Regular-expression model for parse_duration_from_text

Each Python pattern of main.py line 82 is hand-translated into a matcher
`List Char → Option (List Char)` that attempts a match at the start of the
input and returns the remaining suffix.  Greedy quantifier semantics is
preserved; for these patterns the follow sets of every starred class are
disjoint from the class so maximal munch never needs to backtrack, except
for the optional fraction and the alternations, which are handled
explicitly in Python's leftmost-first order. -/

def isDigitChar (c : Char) : Bool := '0' ≤ c && c ≤ '9'

def isWordChar (c : Char) : Bool :=
  isDigitChar c || ('a' ≤ c && c ≤ 'z') || ('A' ≤ c && c ≤ 'Z') || c == '_'

/-- Greedy `\s*`. -/
def wsRun (l : List Char) : List Char := l.dropWhile (fun c => isWsChar c)

/-- Greedy run of digits. -/
def digitRun (l : List Char) : List Char := l.dropWhile (fun c => isDigitChar c)

/-- Optional fraction `(?:\.\d+)?`: consumed only when a dot with at least
one following digit is present. -/
def fracOpt (l : List Char) : List Char :=
  match l with
  | d :: r2 =>
    if d == '.' then
      match r2 with
      | e :: _ => if isDigitChar e then digitRun r2 else l
      | [] => l
    else l
  | [] => l

/-- `\d+(?:\.\d+)?`. -/
def numM (l : List Char) : Option (List Char) :=
  match l with
  | c :: r => if isDigitChar c then some (fracOpt (digitRun r)) else none
  | [] => none

/-- Case-insensitive literal matcher. -/
def litM (pat : List Char) (l : List Char) : Option (List Char) :=
  match pat, l with
  | [], rest => some rest
  | _ :: _, [] => none
  | p :: pr, c :: r => if lowerChar c == lowerChar p then litM pr r else none

/-- Leftmost-first alternation of literals. -/
def altM (pats : List (List Char)) (l : List Char) : Option (List Char) :=
  match pats with
  | [] => none
  | p :: ps =>
    match litM p l with
    | some r => some r
    | none => altM ps l

/-- Trailing `\s*(?:per\s*week|weekly)?` of the hour pattern: always
succeeds, consuming the alternative when one matches after the greedy
whitespace and nothing otherwise (the whitespace stays consumed, exactly
as the regex engine leaves it; the caller strips). -/
def perWeekTail (l : List Char) : List Char :=
  let r := wsRun l
  match litM "per".data r with
  | some r2 =>
    match litM "week".data (wsRun r2) with
    | some r3 => r3
    | none =>
      match litM "weekly".data r with
      | some r4 => r4
      | none => r
  | none =>
    match litM "weekly".data r with
    | some r4 => r4
    | none => r

def hourUnits : List (List Char) := ["hour".data, "hours".data, "hr".data, "hrs".data]

def weekUnits : List (List Char) := ["week".data, "weeks".data, "wk".data, "wks".data]

def monthUnits : List (List Char) := ["month".data, "months".data, "mo".data, "mos".data]

def dayUnits : List (List Char) := ["day".data, "days".data]

def minuteUnits : List (List Char) :=
  ["minute".data, "minutes".data, "min".data, "mins".data]

def hwUnits : List (List Char) := ["hour".data, "hours".data, "week".data, "weeks".data]

/-- Pattern 1: `(\d+(?:\.\d+)?)\s*(hour|hours|hr|hrs)\s*(?:per\s*week|weekly)?`. -/
def pat1M (l : List Char) : Option (List Char) :=
  match numM l with
  | none => none
  | some r1 =>
    match altM hourUnits (wsRun r1) with
    | none => none
    | some r2 => some (perWeekTail r2)

/-- Pattern 2: `(\d+(?:\.\d+)?)\s*(week|weeks|wk|wks)`. -/
def pat2M (l : List Char) : Option (List Char) :=
  match numM l with
  | none => none
  | some r1 => altM weekUnits (wsRun r1)

/-- Pattern 3: `(\d+(?:\.\d+)?)\s*(month|months|mo|mos)`. -/
def pat3M (l : List Char) : Option (List Char) :=
  match numM l with
  | none => none
  | some r1 => altM monthUnits (wsRun r1)

/-- Pattern 4: `(\d+(?:\.\d+)?)\s*(day|days)`. -/
def pat4M (l : List Char) : Option (List Char) :=
  match numM l with
  | none => none
  | some r1 => altM dayUnits (wsRun r1)

/-- Pattern 5: `(\d+(?:\.\d+)?)\s*(minute|minutes|min|mins)`. -/
def pat5M (l : List Char) : Option (List Char) :=
  match numM l with
  | none => none
  | some r1 => altM minuteUnits (wsRun r1)

/-- Pattern 6: `approximately\s*(\d+(?:\.\d+)?)\s*(hour|hours|week|weeks)`. -/
def pat6M (l : List Char) : Option (List Char) :=
  match litM "approximately".data l with
  | none => none
  | some r1 =>
    match numM (wsRun r1) with
    | none => none
    | some r2 => altM hwUnits (wsRun r2)

/-- Pattern 7: `about\s*(\d+(?:\.\d+)?)\s*(hour|hours|week|weeks)`. -/
def pat7M (l : List Char) : Option (List Char) :=
  match litM "about".data l with
  | none => none
  | some r1 =>
    match numM (wsRun r1) with
    | none => none
    | some r2 => altM hwUnits (wsRun r2)

/-- Pattern 8: `(\d+(?:\.\d+)?)-(\d+(?:\.\d+)?)\s*(hour|hours|week|weeks)`. -/
def pat8M (l : List Char) : Option (List Char) :=
  match numM l with
  | none => none
  | some r1 =>
    match litM "-".data r1 with
    | none => none
    | some r2 =>
      match numM r2 with
      | none => none
      | some r3 => altM hwUnits (wsRun r3)

/-- `re.search`: try the matcher at every position left to right and return
the first matched substring (`group(0)`). -/
def searchM (m : List Char → Option (List Char)) : List Char → Option (List Char)
  | [] =>
    match m [] with
    | some _ => some []
    | none => none
  | c :: r =>
    match m (c :: r) with
    | some rest => some ((c :: r).take ((c :: r).length - rest.length))
    | none => searchM m r

/-- The ordered pattern list of main.py line 82 (source order: the five
value+unit patterns, then approximately, then about, then the range). -/
def duration_pattern_list : List (List Char → Option (List Char)) :=
  [pat1M, pat2M, pat3M, pat4M, pat5M, pat6M, pat7M, pat8M]

/-- First pattern whose search hits, in list order. -/
def tryPats : List (List Char → Option (List Char)) → List Char → Option (List Char)
  | [], _ => none
  | p :: ps, l =>
    match searchM p l with
    | some mtxt => some mtxt
    | none => tryPats ps l

/-- main.py line 76: lowers the text, tries the patterns in order, returns
the first match stripped; empty input returns none. -/
def parse_duration_from_text (text : String) : Option String :=
  if text = "" then none
  else
    match tryPats duration_pattern_list (lowerL text.data) with
    | some m => some (String.mk (stripWs m))
    | none => none

/-- Modelled from the spec wording of the pattern order (numeric value +
unit patterns, then the range pattern, then approximately/about): same
patterns, spec order. -/
def duration_pattern_list_spec : List (List Char → Option (List Char)) :=
  [pat1M, pat2M, pat3M, pat4M, pat5M, pat8M, pat6M, pat7M]

/-- The ordered-pattern extractor as the spec narrates it. -/
def extract_duration_pattern_spec (text : String) : Option String :=
  if text = "" then none
  else
    match tryPats duration_pattern_list_spec (lowerL text.data) with
    | some m => some (String.mk (stripWs m))
    | none => none

/-! ## extract_duration_like (the keyword sniffer, main.py line 55) -/

def time_keywords : List String :=
  ["hour", "hours", "hr", "hrs",
   "week", "weeks", "wk", "wks",
   "month", "months", "mo", "mos",
   "day", "days", "minute", "minutes", "min", "mins",
   "approx", "approximately", "estimated", "complete",
   "pace", "commitment", "time"]

def hasTimeKeyword (t : List Char) : Bool :=
  time_keywords.any (fun k => containsL t k.data)

def label_words : List (List Char) :=
  ["duration".data, "time".data, "estimated".data, "approximately".data, "approx".data]

/-- Anchored alternation of `^(duration|time|estimated|approximately|approx):`
with Python backtracking: an alternative that matches but is not followed
by a colon falls through to the next alternative. -/
def findLabel : List (List Char) → List Char → Option (List Char)
  | [], _ => none
  | w :: ws', l =>
    match litM w l with
    | some r =>
      match r with
      | c :: r2 => if c == ':' then some r2 else findLabel ws' l
      | [] => findLabel ws' l
    | none => findLabel ws' l

/-- `re.sub(r'^(duration|time|estimated|approximately|approx):\s*', '', s, re.I)`. -/
def stripLabel (l : List Char) : List Char :=
  match findLabel label_words l with
  | some rest => wsRun rest
  | none => l

/-- main.py line 55: return the cleaned text with a leading duration label
stripped when it contains a time keyword, else none. -/
def extract_duration_like (text : String) : Option String :=
  if hasTimeKeyword (lowerL text.data) then
    some (String.mk (stripLabel (clean_text (some text)).data))
  else none

/-! ## Suffix lemmas for the matchers -/

theorem sfx_cons_ext {s r : List Char} (c : Char) (h : List.IsSuffix s r) :
    List.IsSuffix s (c :: r) := by
  obtain ⟨t, ht⟩ := h
  exact ⟨c :: t, by rw [List.cons_append, ht]⟩

theorem sfx_dropWhile (p : Char → Bool) : ∀ l : List Char,
    List.IsSuffix (List.dropWhile p l) l := by
  intro l
  induction l with
  | nil => exact ⟨[], rfl⟩
  | cons c r ih =>
    by_cases hc : p c = true
    · have : List.dropWhile p (c :: r) = List.dropWhile p r := by
        simp [List.dropWhile, hc]
      rw [this]
      exact sfx_cons_ext c ih
    · have : List.dropWhile p (c :: r) = c :: r := by
        simp [List.dropWhile, hc]
      rw [this]

theorem sfx_cons_elim {s r : List Char} {c : Char} (h : List.IsSuffix s (c :: r)) :
    s = c :: r ∨ List.IsSuffix s r := by
  obtain ⟨t, ht⟩ := h
  cases t with
  | nil => left; simpa using ht
  | cons x t' =>
    right
    rw [List.cons_append] at ht
    injection ht with h1 h2
    exact ⟨t', h2⟩

theorem fracOpt_sfx (l : List Char) : List.IsSuffix (fracOpt l) l := by
  cases l with
  | nil => exact ⟨[], rfl⟩
  | cons d r2 =>
    by_cases hd : (d == '.') = true
    · cases r2 with
      | nil =>
        have : fracOpt [d] = [d] := by simp [fracOpt, hd]
        rw [this]
      | cons e r3 =>
        by_cases he : isDigitChar e = true
        · have : fracOpt (d :: e :: r3) = digitRun (e :: r3) := by
            simp [fracOpt, hd, he]
          rw [this]
          exact sfx_cons_ext d (sfx_dropWhile _ (e :: r3))
        · have : fracOpt (d :: e :: r3) = d :: e :: r3 := by
            simp [fracOpt, hd, he]
          rw [this]
    · have : fracOpt (d :: r2) = d :: r2 := by simp [fracOpt, hd]
      rw [this]

theorem numM_sfx {l r : List Char} (h : numM l = some r) : List.IsSuffix r l := by
  cases l with
  | nil => simp [numM] at h
  | cons c m =>
    by_cases hc : isDigitChar c = true
    · simp [numM, hc] at h
      rw [← h]
      exact sfx_cons_ext c
        (List.IsSuffix.trans (fracOpt_sfx (digitRun m)) (sfx_dropWhile _ m))
    · simp [numM, hc] at h

theorem litM_sfx : ∀ (pat l r : List Char), litM pat l = some r → List.IsSuffix r l := by
  intro pat
  induction pat with
  | nil =>
    intro l r h
    simp [litM] at h
    rw [← h]
  | cons p pr ih =>
    intro l r h
    cases l with
    | nil => simp [litM] at h
    | cons c m =>
      by_cases hc : (lowerChar c == lowerChar p) = true
      · simp [litM, hc] at h
        exact sfx_cons_ext c (ih m r h)
      · simp [litM, hc] at h

theorem altM_sfx : ∀ (ps : List (List Char)) (l r : List Char),
    altM ps l = some r → List.IsSuffix r l := by
  intro ps
  induction ps with
  | nil => intro l r h; simp [altM] at h
  | cons p ps' ih =>
    intro l r h
    simp only [altM] at h
    cases hp : litM p l with
    | some r2 =>
      rw [hp] at h
      simp at h
      rw [← h]
      exact litM_sfx p l r2 hp
    | none =>
      rw [hp] at h
      exact ih l r h

theorem litM_append_isSome : ∀ (p q l : List Char),
    (litM (p ++ q) l).isSome = true → (litM p l).isSome = true := by
  intro p
  induction p with
  | nil => intro q l _; simp [litM]
  | cons a pr ih =>
    intro q l h
    cases l with
    | nil => simp [litM] at h
    | cons c m =>
      by_cases hc : (lowerChar c == lowerChar a) = true
      · simp only [List.cons_append, litM, hc, if_true] at h ⊢
        exact ih q m h
      · simp only [List.cons_append, litM, hc, if_false] at h
        simp at h

theorem altM_cons_elim {p : List Char} {ps : List (List Char)} {l r : List Char}
    (h : altM (p :: ps) l = some r) :
    (litM p l).isSome = true ∨ altM ps l = some r := by
  simp only [altM] at h
  cases hp : litM p l with
  | some r2 => left; rfl
  | none => right; simp only [hp] at h; exact h

theorem altM_hw_elim {l r : List Char} (h : altM hwUnits l = some r) :
    (litM "hour".data l).isSome = true ∨ (litM "week".data l).isSome = true := by
  have hu : hwUnits =
      "hour".data :: "hours".data :: "week".data :: "weeks".data :: [] := rfl
  rw [hu] at h
  rcases altM_cons_elim h with hh | h
  · exact Or.inl hh
  rcases altM_cons_elim h with hh | h
  · left
    apply litM_append_isSome "hour".data "s".data l
    have he : "hour".data ++ "s".data = "hours".data := by decide
    rw [he]
    exact hh
  rcases altM_cons_elim h with hh | h
  · exact Or.inr hh
  rcases altM_cons_elim h with hh | h
  · right
    apply litM_append_isSome "week".data "s".data l
    have he : "week".data ++ "s".data = "weeks".data := by decide
    rw [he]
    exact hh
  simp [altM] at h

theorem pat1M_isSome_of_hour {l r1 : List Char} (hn : numM l = some r1)
    (hh : (litM "hour".data (wsRun r1)).isSome = true) :
    (pat1M l).isSome = true := by
  obtain ⟨r2, hr2⟩ := Option.isSome_iff_exists.mp hh
  have hu : hourUnits =
      "hour".data :: "hours".data :: "hr".data :: "hrs".data :: [] := rfl
  have halt : altM hourUnits (wsRun r1) = some r2 := by
    rw [hu]
    simp only [altM]
    rw [hr2]
  simp only [pat1M, hn]
  rw [halt]
  rfl

theorem pat2M_isSome_of_week {l r1 : List Char} (hn : numM l = some r1)
    (hw : (litM "week".data (wsRun r1)).isSome = true) :
    (pat2M l).isSome = true := by
  obtain ⟨r2, hr2⟩ := Option.isSome_iff_exists.mp hw
  have hu : weekUnits =
      "week".data :: "weeks".data :: "wk".data :: "wks".data :: [] := rfl
  have halt : altM weekUnits (wsRun r1) = some r2 := by
    rw [hu]
    simp only [altM]
    rw [hr2]
  simp only [pat2M, hn]
  rw [halt]
  rfl

theorem pat6M_elim {l r : List Char} (h : pat6M l = some r) :
    ∃ s, List.IsSuffix s l ∧ ((pat1M s).isSome = true ∨ (pat2M s).isSome = true) := by
  simp only [pat6M] at h
  cases ha : litM "approximately".data l with
  | none => rw [ha] at h; simp at h
  | some r1 =>
    simp only [ha] at h
    cases hn : numM (wsRun r1) with
    | none => rw [hn] at h; simp at h
    | some r2 =>
      simp only [hn] at h
      refine ⟨wsRun r1, List.IsSuffix.trans (sfx_dropWhile _ r1) (litM_sfx _ l r1 ha), ?_⟩
      rcases altM_hw_elim h with hh | hw
      · exact Or.inl (pat1M_isSome_of_hour hn hh)
      · exact Or.inr (pat2M_isSome_of_week hn hw)

theorem pat7M_elim {l r : List Char} (h : pat7M l = some r) :
    ∃ s, List.IsSuffix s l ∧ ((pat1M s).isSome = true ∨ (pat2M s).isSome = true) := by
  simp only [pat7M] at h
  cases ha : litM "about".data l with
  | none => rw [ha] at h; simp at h
  | some r1 =>
    simp only [ha] at h
    cases hn : numM (wsRun r1) with
    | none => rw [hn] at h; simp at h
    | some r2 =>
      simp only [hn] at h
      refine ⟨wsRun r1, List.IsSuffix.trans (sfx_dropWhile _ r1) (litM_sfx _ l r1 ha), ?_⟩
      rcases altM_hw_elim h with hh | hw
      · exact Or.inl (pat1M_isSome_of_hour hn hh)
      · exact Or.inr (pat2M_isSome_of_week hn hw)

theorem pat8M_elim {l r : List Char} (h : pat8M l = some r) :
    ∃ s, List.IsSuffix s l ∧ ((pat1M s).isSome = true ∨ (pat2M s).isSome = true) := by
  simp only [pat8M] at h
  cases hn1 : numM l with
  | none => rw [hn1] at h; simp at h
  | some r1 =>
    simp only [hn1] at h
    cases hd : litM "-".data r1 with
    | none => rw [hd] at h; simp at h
    | some r2 =>
      simp only [hd] at h
      cases hn2 : numM r2 with
      | none => rw [hn2] at h; simp at h
      | some r3 =>
        simp only [hn2] at h
        refine ⟨r2, List.IsSuffix.trans (litM_sfx _ r1 r2 hd) (numM_sfx hn1), ?_⟩
        rcases altM_hw_elim h with hh | hw
        · exact Or.inl (pat1M_isSome_of_hour hn2 hh)
        · exact Or.inr (pat2M_isSome_of_week hn2 hw)

theorem searchM_isSome_of_matchAt (m : List Char → Option (List Char)) :
    ∀ (l s : List Char), List.IsSuffix s l → (m s).isSome = true →
    (searchM m l).isSome = true := by
  intro l
  induction l with
  | nil =>
    intro s hs hm
    have hsnil : s = [] := by
      obtain ⟨t, ht⟩ := hs
      exact (List.append_eq_nil.mp ht).2
    subst hsnil
    obtain ⟨v, hv⟩ := Option.isSome_iff_exists.mp hm
    simp only [searchM, hv]
    rfl
  | cons c r ih =>
    intro s hs hm
    simp only [searchM]
    cases hmc : m (c :: r) with
    | some rest => rfl
    | none =>
      rcases sfx_cons_elim hs with he | hsr
      · subst he; rw [hmc] at hm; simp at hm
      · exact ih s hsr hm

theorem searchM_some_elim (m : List Char → Option (List Char)) :
    ∀ (l : List Char) (v : List Char), searchM m l = some v →
    ∃ s, List.IsSuffix s l ∧ (m s).isSome = true := by
  intro l
  induction l with
  | nil =>
    intro v h
    simp only [searchM] at h
    cases hm : m [] with
    | none => rw [hm] at h; simp at h
    | some w => exact ⟨[], ⟨[], rfl⟩, by rw [hm]; rfl⟩
  | cons c r ih =>
    intro v h
    simp only [searchM] at h
    cases hm : m (c :: r) with
    | some rest => exact ⟨c :: r, ⟨[], rfl⟩, by rw [hm]; rfl⟩
    | none =>
      rw [hm] at h
      obtain ⟨s, hs, hms⟩ := ih v h
      exact ⟨s, sfx_cons_ext c hs, hms⟩

/-- When neither the hour pattern nor the week pattern matches anywhere,
the approximately pattern cannot match either (it contains a number
followed by an hour/week unit). -/
theorem searchM_pat6_none (l : List Char) (h1 : searchM pat1M l = none)
    (h2 : searchM pat2M l = none) : searchM pat6M l = none := by
  cases hs : searchM pat6M l with
  | none => rfl
  | some v =>
    exfalso
    obtain ⟨s, hsfx, hsome⟩ := searchM_some_elim pat6M l v hs
    obtain ⟨r, hr⟩ := Option.isSome_iff_exists.mp hsome
    obtain ⟨s', hsfx', hor⟩ := pat6M_elim hr
    rcases hor with hp1 | hp2
    · have := searchM_isSome_of_matchAt pat1M l s' (List.IsSuffix.trans hsfx' hsfx) hp1
      rw [h1] at this; simp at this
    · have := searchM_isSome_of_matchAt pat2M l s' (List.IsSuffix.trans hsfx' hsfx) hp2
      rw [h2] at this; simp at this

theorem searchM_pat7_none (l : List Char) (h1 : searchM pat1M l = none)
    (h2 : searchM pat2M l = none) : searchM pat7M l = none := by
  cases hs : searchM pat7M l with
  | none => rfl
  | some v =>
    exfalso
    obtain ⟨s, hsfx, hsome⟩ := searchM_some_elim pat7M l v hs
    obtain ⟨r, hr⟩ := Option.isSome_iff_exists.mp hsome
    obtain ⟨s', hsfx', hor⟩ := pat7M_elim hr
    rcases hor with hp1 | hp2
    · have := searchM_isSome_of_matchAt pat1M l s' (List.IsSuffix.trans hsfx' hsfx) hp1
      rw [h1] at this; simp at this
    · have := searchM_isSome_of_matchAt pat2M l s' (List.IsSuffix.trans hsfx' hsfx) hp2
      rw [h2] at this; simp at this

theorem searchM_pat8_none (l : List Char) (h1 : searchM pat1M l = none)
    (h2 : searchM pat2M l = none) : searchM pat8M l = none := by
  cases hs : searchM pat8M l with
  | none => rfl
  | some v =>
    exfalso
    obtain ⟨s, hsfx, hsome⟩ := searchM_some_elim pat8M l v hs
    obtain ⟨r, hr⟩ := Option.isSome_iff_exists.mp hsome
    obtain ⟨s', hsfx', hor⟩ := pat8M_elim hr
    rcases hor with hp1 | hp2
    · have := searchM_isSome_of_matchAt pat1M l s' (List.IsSuffix.trans hsfx' hsfx) hp1
      rw [h1] at this; simp at this
    · have := searchM_isSome_of_matchAt pat2M l s' (List.IsSuffix.trans hsfx' hsfx) hp2
      rw [h2] at this; simp at this

/-- The source's pattern order and the spec's narrated pattern order give
the same result on every input: the approximately/about/range patterns can
only match where the plain value+unit patterns already match. -/
theorem tryPats_order_eq (L : List Char) :
    tryPats duration_pattern_list L = tryPats duration_pattern_list_spec L := by
  simp only [duration_pattern_list, duration_pattern_list_spec, tryPats]
  cases h1 : searchM pat1M L with
  | some v => rfl
  | none =>
    cases h2 : searchM pat2M L with
    | some v => rfl
    | none =>
      cases h3 : searchM pat3M L with
      | some v => rfl
      | none =>
        cases h4 : searchM pat4M L with
        | some v => rfl
        | none =>
          cases h5 : searchM pat5M L with
          | some v => rfl
          | none =>
            rw [searchM_pat6_none L h1 h2, searchM_pat7_none L h1 h2,
                searchM_pat8_none L h1 h2]

/-- Corrected claim C7: parse_duration_from_text lowers the input, tries
its regex patterns in a fixed order returning the first match's stripped
substring and none when nothing matches, and that order is observably
equal to the order the spec narrates; but on
"approximately 4 weeks to complete" the result is "4 week" — containing
"4" and "week", not "weeks", because the alternation week|weeks takes the
first alternative. -/
theorem claim_C7_extract_duration_pattern :
    (∀ text : String,
      parse_duration_from_text text = extract_duration_pattern_spec text) ∧
    (∀ text : String,
      tryPats duration_pattern_list (lowerL text.data) = none →
      parse_duration_from_text text = none) ∧
    parse_duration_from_text "approximately 4 weeks to complete" = some "4 week" ∧
    containsL "4 week".data "4".data = true ∧
    containsL "4 week".data "week".data = true := by
  refine ⟨?_, ?_, by decide, by decide, by decide⟩
  · intro text
    unfold parse_duration_from_text extract_duration_pattern_spec
    by_cases ht : text = ""
    · simp [ht]
    · simp only [if_neg ht]
      rw [tryPats_order_eq]
  · intro text h
    unfold parse_duration_from_text
    by_cases ht : text = ""
    · simp [ht]
    · simp only [if_neg ht]
      rw [h]

/-- Witness for the corrected claim C7: applying the theorem at an input
where no pattern matches. -/
theorem claim_C7_witness : parse_duration_from_text "no numbers here" = none :=
  claim_C7_extract_duration_pattern.2.1 "no numbers here" (by decide)

/-- Counterexample to claim C7 as stated: the result on the spec's own
example is "4 week", which does not contain the substring "weeks". -/
theorem claim_C7_counterexample :
    parse_duration_from_text "approximately 4 weeks to complete" = some "4 week" ∧
    containsL "4 week".data "weeks".data = false := by
  exact ⟨by decide, by decide⟩

/-! ## Document model for parse_course_detail (main.py line 180)

BeautifulSoup queries are the abstraction boundary: a Doc carries, for each
query the code performs, the query's result in document order (texts are
the raw get_text results; the code's clean_text / regex / truthiness logic
is applied by the embedding, as in the source). -/

/-- A text-bearing element with its tag, as find_all / select return it. -/
structure Elem where
  tag : String
  text : String

/-- One parsed ld+json script: none models a json.loads failure or a
non-dict value, otherwise the optional timeRequired / duration fields
(duration already passed through str). -/
structure JsonBlock where
  timeRequired : Option String
  durationVal : Option String

/-- One h2/h3 heading together with the list structure the concepts
strategy harvests around it: the ul/ol lists under its parent and the
ul/ol lists under its next sibling (none when there is no sibling);
each list is its li texts. -/
structure HeadingSec where
  text : String
  parentLists : List (List String)
  sibLists : Option (List (List String))

/-- A rendered detail page, as the queries of parse_course_detail see it. -/
structure Doc where
  selTexts : List (List String)
  scripts : List (Option JsonBlock)
  infoSections : List (List Elem)
  metaTexts : List (List String)
  commitNodes : List (List (String × List String))
  pageText : String
  elements : List Elem
  headingSecs : List HeadingSec

/-- Python truthiness of an Optional[str]. -/
def truthy : Option String → Bool
  | none => false
  | some s => s != ""

/-- Strategy 1 inner loop (main.py line 204): for each element text of one
selector, sniff and accept when nonempty and shorter than 50. -/
def strat1ScanElems : List String → Option String
  | [] => none
  | raw :: rest =>
    match extract_duration_like (clean_text (some raw)) with
    | some d => if d != "" && d.length < 50 then some d else strat1ScanElems rest
    | none => strat1ScanElems rest

def strat1Scan : List (List String) → Option String
  | [] => none
  | sel :: rest =>
    match strat1ScanElems sel with
    | some d => some d
    | none => strat1Scan rest

/-- Strategy 1: named duration/time selectors with the keyword sniffer. -/
def strat1 (doc : Doc) : Option String := strat1Scan doc.selTexts

/-- Strategy 2 (main.py line 217): first script whose dict has a
timeRequired key, else a duration key; parse failures are skipped. -/
def strat2Scan : List (Option JsonBlock) → Option String
  | [] => none
  | none :: rest => strat2Scan rest
  | some b :: rest =>
    match b.timeRequired with
    | some v => some v
    | none =>
      match b.durationVal with
      | some v => some v
      | none => strat2Scan rest

def strat2 (doc : Doc) : Option String := strat2Scan doc.scripts

/-- Word-boundary gate of strategy 3:
`\b\d+\s*(hour|...|wks)\b` with re.I. -/
def gateUnits : List (List Char) :=
  ["hour".data, "hours".data, "week".data, "weeks".data, "month".data,
   "months".data, "day".data, "days".data, "hr".data, "hrs".data,
   "wk".data, "wks".data]

def boundaryOk (l : List Char) : Bool :=
  match l with
  | [] => true
  | c :: _ => !(isWordChar c)

/-- Alternation with a trailing word boundary: an alternative that matches
but is followed by a word character falls through to the next. -/
def gateAlt : List (List Char) → List Char → Bool
  | [], _ => false
  | w :: ws', l =>
    match litM w l with
    | some rest => if boundaryOk rest then true else gateAlt ws' l
    | none => gateAlt ws' l

def gateAt (l : List Char) : Bool :=
  match l with
  | c :: r => if isDigitChar c then gateAlt gateUnits (wsRun (digitRun r)) else false
  | [] => false

/-- Search with the leading word boundary: the digit may only start a match
when the previous character is not a word character. -/
def gateSearch : Bool → List Char → Bool
  | _, [] => false
  | prevWord, c :: r =>
    (if prevWord then false else gateAt (c :: r)) || gateSearch (isWordChar c) r

def hasNumUnit (txt : String) : Bool := gateSearch false txt.data

/-- Strategy 3 inner loop (main.py line 241): span/div/li/p elements of an
info section, gated by the numeric-unit regex, then sniffed with the
length cap. -/
def strat3ScanElems : List Elem → Option String
  | [] => none
  | el :: rest =>
    let txt := clean_text (some el.text)
    if hasNumUnit txt then
      match extract_duration_like txt with
      | some d => if d != "" && d.length < 50 then some d else strat3ScanElems rest
      | none => strat3ScanElems rest
    else strat3ScanElems rest

def sectionElems (sec : List Elem) : List Elem :=
  sec.filter (fun e => e.tag == "span" || e.tag == "div" || e.tag == "li" || e.tag == "p")

def strat3Scan : List (List Elem) → Option String
  | [] => none
  | sec :: rest =>
    match strat3ScanElems (sectionElems sec) with
    | some d => some d
    | none => strat3Scan rest

def strat3 (doc : Doc) : Option String := strat3Scan doc.infoSections

/-- Strategy 4 inner loop (main.py line 263): regex detector on each
selector-matched text, truthy result wins. -/
def strat4ScanElems : List String → Option String
  | [] => none
  | raw :: rest =>
    match parse_duration_from_text (clean_text (some raw)) with
    | some d => if d != "" then some d else strat4ScanElems rest
    | none => strat4ScanElems rest

def strat4Scan : List (List String) → Option String
  | [] => none
  | sel :: rest =>
    match strat4ScanElems sel with
    | some d => some d
    | none => strat4Scan rest

def strat4 (doc : Doc) : Option String := strat4Scan doc.metaTexts

/-- Strategy 5 (main.py line 274): for each commitment keyword, for each
matching text node, scan the parent and its next three siblings with the
regex detector. -/
def strat5Sibs : List String → Option String
  | [] => none
  | s :: rest =>
    match parse_duration_from_text (clean_text (some s)) with
    | some d => if d != "" then some d else strat5Sibs rest
    | none => strat5Sibs rest

def strat5Nodes : List (String × List String) → Option String
  | [] => none
  | node :: rest =>
    match strat5Sibs (node.1 :: node.2.take 3) with
    | some d => some d
    | none => strat5Nodes rest

def strat5Groups : List (List (String × List String)) → Option String
  | [] => none
  | g :: rest =>
    match strat5Nodes g with
    | some d => some d
    | none => strat5Groups rest

def strat5 (doc : Doc) : Option String := strat5Groups doc.commitNodes

/-- Strategy 6 (main.py line 294): title and h1-h3 elements with the regex
detector. -/
def headElems (doc : Doc) : List Elem :=
  doc.elements.filter
    (fun e => e.tag == "title" || e.tag == "h1" || e.tag == "h2" || e.tag == "h3")

def strat6Scan : List Elem → Option String
  | [] => none
  | el :: rest =>
    match parse_duration_from_text (clean_text (some el.text)) with
    | some d => if d != "" then some d else strat6Scan rest
    | none => strat6Scan rest

def strat6 (doc : Doc) : Option String := strat6Scan (headElems doc)

/-! Strategy 7 regexes (main.py lines 306-310), matched case-insensitively
on the cleaned whole-page text. -/

/-- Optional `s?` after a unit word. -/
def optS (l : List Char) : List Char :=
  match l with
  | c :: r => if lowerChar c == 's' then r else l
  | [] => l

/-- `(hours?|hrs?)`. -/
def hourUnit7 (l : List Char) : Option (List Char) :=
  match litM "hour".data l with
  | some r => some (optS r)
  | none =>
    match litM "hr".data l with
    | some r => some (optS r)
    | none => none

/-- Mandatory `(?:per\s*week|weekly)`. -/
def perWeekMand (l : List Char) : Option (List Char) :=
  match litM "per".data l with
  | some r2 =>
    match litM "week".data (wsRun r2) with
    | some r3 => some r3
    | none => litM "weekly".data l
  | none => litM "weekly".data l

/-- Optional `(?:to\s*)?` (committing to a present "to" loses no match,
since a skipped "to" can never start the following number or unit). -/
def toOpt (l : List Char) : List Char :=
  match litM "to".data l with
  | some rt => wsRun rt
  | none => l

/-- Optional second number `(\d+(?:\.\d+)?)?` (same commitment argument). -/
def numOpt (l : List Char) : List Char :=
  match numM l with
  | some rn => rn
  | none => l

/-- The part of the first strategy-7 pattern after the leading number:
`\s*(?:to\s*)?(\d+(?:\.\d+)?)?\s*(hours?|hrs?)\s*(?:per\s*week|weekly)`. -/
def q1Rest (l : List Char) : Option (List Char) :=
  match hourUnit7 (wsRun (numOpt (toOpt (wsRun l)))) with
  | none => none
  | some r5 => perWeekMand (wsRun r5)

/-- `(\d+(?:\.\d+)?)\s*(?:to\s*)?(\d+(?:\.\d+)?)?\s*(hours?|hrs?)\s*(?:per\s*week|weekly)`. -/
def q1M (l : List Char) : Option (List Char) :=
  match numM l with
  | none => none
  | some r1 => q1Rest r1

/-- `(weeks?|months?|days?)`. -/
def unitQ2 (l : List Char) : Option (List Char) :=
  match litM "week".data l with
  | some r => some (optS r)
  | none =>
    match litM "month".data l with
    | some r => some (optS r)
    | none =>
      match litM "day".data l with
      | some r => some (optS r)
      | none => none

/-- `complete\s*in\s*(\d+(?:\.\d+)?)\s*(weeks?|months?|days?)`. -/
def q2M (l : List Char) : Option (List Char) :=
  match litM "complete".data l with
  | none => none
  | some r1 =>
    match litM "in".data (wsRun r1) with
    | none => none
    | some r2 =>
      match numM (wsRun r2) with
      | none => none
      | some r3 => unitQ2 (wsRun r3)

/-- `(weeks?|months?)`. -/
def unitQ3 (l : List Char) : Option (List Char) :=
  match litM "week".data l with
  | some r => some (optS r)
  | none =>
    match litM "month".data l with
    | some r => some (optS r)
    | none => none

/-- Mandatory `(?:to\s*complete|duration|long)`. -/
def tailQ3 (l : List Char) : Option (List Char) :=
  match litM "to".data l with
  | some r =>
    match litM "complete".data (wsRun r) with
    | some r2 => some r2
    | none =>
      match litM "duration".data l with
      | some r2 => some r2
      | none => litM "long".data l
  | none =>
    match litM "duration".data l with
    | some r2 => some r2
    | none => litM "long".data l

/-- `(\d+(?:\.\d+)?)\s*(weeks?|months?)\s*(?:to\s*complete|duration|long)`. -/
def q3M (l : List Char) : Option (List Char) :=
  match numM l with
  | none => none
  | some r1 =>
    match unitQ3 (wsRun r1) with
    | none => none
    | some r2 => tailQ3 (wsRun r2)

/-- Strategy 7: the three whole-page regex shapes tried in order on the
cleaned page text; the stripped match is assigned with no length or
emptiness check. -/
def strat7 (doc : Doc) : Option String :=
  let pt := clean_text (some doc.pageText)
  match searchM q1M pt.data with
  | some m => some (String.mk (stripWs m))
  | none =>
    match searchM q2M pt.data with
    | some m => some (String.mk (stripWs m))
    | none =>
      match searchM q3M pt.data with
      | some m => some (String.mk (stripWs m))
      | none => none

/-- Strategy 8 (main.py line 317): every span/div/li/p element, text length
strictly between 5 and 100, regex detector. -/
def bodyElems (doc : Doc) : List Elem :=
  doc.elements.filter
    (fun e => e.tag == "span" || e.tag == "div" || e.tag == "li" || e.tag == "p")

def strat8Scan : List Elem → Option String
  | [] => none
  | el :: rest =>
    let txt := clean_text (some el.text)
    if 5 < txt.length && txt.length < 100 then
      match parse_duration_from_text txt with
      | some d => if d != "" then some d else strat8Scan rest
      | none => strat8Scan rest
    else strat8Scan rest

def strat8 (doc : Doc) : Option String := strat8Scan (bodyElems doc)

/-- One `if not duration:` stage of the cascade: keep a truthy value,
otherwise take the strategy result when it produced one (even a falsy
one), otherwise keep the old value. -/
def stepStrat (cur : Option String) (next : Option String) : Option String :=
  if truthy cur then cur
  else
    match next with
    | some v => some v
    | none => cur

/-- The duration cascade of parse_course_detail, exactly in source order. -/
def durationOf (doc : Doc) : Option String :=
  let d1 := stepStrat none (strat1 doc)
  let d2 := stepStrat d1 (strat2 doc)
  let d3 := stepStrat d2 (strat3 doc)
  let d4 := stepStrat d3 (strat4 doc)
  let d5 := stepStrat d4 (strat5 doc)
  let d6 := stepStrat d5 (strat6 doc)
  let d7 := stepStrat d6 (strat7 doc)
  stepStrat d7 (strat8 doc)

/-- Level scan (main.py line 328): first span/div/li element whose text
classifies. -/
def levelElems (doc : Doc) : List Elem :=
  doc.elements.filter (fun e => e.tag == "span" || e.tag == "div" || e.tag == "li")

def levelScan : List Elem → Option String
  | [] => none
  | el :: rest =>
    match normalize_level el.text with
    | some lev => some lev
    | none => levelScan rest

def levelOf (doc : Doc) : Option String := levelScan (levelElems doc)

/-! ## Concepts extraction (main.py lines 334-381) -/

/-- The straight apostrophe. -/
def apoC : Char := Char.ofNat 39

/-- The right single quotation mark used on the site. -/
def rsqC : Char := Char.ofNat 8217

/-- Alternatives of the heading regex
`(what you('|X)ll learn|skills you('|X)ll gain|skills you will gain)`
where X is the curly apostrophe. -/
def learnPhrases : List (List Char) :=
  ["what you".data ++ [apoC] ++ "ll learn".data,
   "what you".data ++ [rsqC] ++ "ll learn".data,
   "skills you".data ++ [apoC] ++ "ll gain".data,
   "skills you".data ++ [rsqC] ++ "ll gain".data,
   "skills you will gain".data]

def headingMatch (ht : String) : Bool :=
  learnPhrases.any (fun p => containsL (lowerL ht.data) p)

/-- The harvested ul/ol lists: for each matching heading, up to three
lists under its parent then up to three under its next sibling. -/
def target_sections (doc : Doc) : List (List String) :=
  doc.headingSecs.foldl
    (fun acc h =>
      if headingMatch (clean_text (some h.text)) then
        acc ++ h.parentLists.take 3 ++
          (match h.sibLists with
           | some ls => ls.take 3
           | none => [])
      else acc) []

/-- Append an entry when its key passes the filter and is not yet present
(the shape of both inline dedup loops). -/
def addIf (key : α → String) (cond : String → Bool) (acc : List String) (x : α) :
    List String :=
  let t := key x
  if cond t && !(acc.contains t) then acc ++ [t] else acc

/-- Strategy A of concepts: flatten the harvested lists, clean each item,
keep nonempty items not already collected. -/
def stratAConcepts (doc : Doc) : List String :=
  (target_sections doc).foldl
    (fun acc lst => lst.foldl (addIf (fun i => clean_text (some i)) (fun t => t != "")) acc)
    []

def chip_vocab : List String :=
  ["python", "java", "c++", "c ", "html", "css", "sql",
   "data", "oop", "api", "algorithms", "arrays", "pandas",
   "django", "spring", "react", "dom", "selectors", "queries",
   "object-oriented", "inheritance", "polymorphism", "encapsulation",
   "debug", "testing", "performance", "asynchronous", "promises"]

/-- Count of whitespace-separated tokens, Python len(s.split()). -/
def countWordsGo : Bool → List Char → Nat
  | _, [] => 0
  | inWord, c :: r =>
    if isWsChar c then countWordsGo false r
    else (if inWord then 0 else 1) + countWordsGo true r

def countWords (s : String) : Nat := countWordsGo false s.data

/-- Chip filter of strategy B: 2..6 tokens and a vocabulary hit. -/
def chipOk (txt : String) : Bool :=
  1 < countWords txt && countWords txt ≤ 6 &&
    chip_vocab.any (fun k => containsL (lowerL txt.data) k.data)

def chipElems (doc : Doc) : List Elem :=
  doc.elements.filter (fun e => e.tag == "span" || e.tag == "div")

/-- Strategy B of concepts (chip fallback). -/
def stratBConcepts (doc : Doc) : List String :=
  (chipElems doc).foldl (addIf (fun el => clean_text (some el.text)) chipOk) []

/-- The final explicit dedup pass (main.py line 375). -/
def dedupStrGo : List String → List String → List String
  | [], _ => []
  | c :: r, seen => if seen.contains c then dedupStrGo r seen else c :: dedupStrGo r (c :: seen)

def dedupStr (l : List String) : List String := dedupStrGo l []

/-- Concepts of parse_course_detail: strategy A, chip fallback when A is
empty, dedup, cap at 30. -/
def conceptsOf (doc : Doc) : List String :=
  let cA := stratAConcepts doc
  let cs := if cA.isEmpty then stratBConcepts doc else cA
  (dedupStr cs).take 30

/-- parse_course_detail returns the extracted triple. -/
def parse_course_detail (doc : Doc) :
    Option String × Option String × List String :=
  (durationOf doc, levelOf doc, conceptsOf doc)

/-! ## Claim C10: the level scan sees only span, div and li elements -/

theorem levelScan_none : ∀ els : List Elem,
    (∀ e ∈ els, normalize_level e.text = none) → levelScan els = none := by
  intro els
  induction els with
  | nil => intro _; rfl
  | cons el rest ih =>
    intro h
    have he : normalize_level el.text = none := h el (by simp)
    simp only [levelScan, he]
    exact ih (fun e hee => h e (List.mem_cons_of_mem el hee))

/-- Claim C10: the level extractor inspects only span, div and li elements,
so a page whose level keywords occur only in other element types yields no
level. -/
theorem claim_C10_level_scan :
    ∀ doc : Doc,
      (∀ e ∈ doc.elements, (e.tag = "span" ∨ e.tag = "div" ∨ e.tag = "li") →
        normalize_level e.text = none) →
      levelOf doc = none := by
  intro doc h
  apply levelScan_none
  intro e he
  have hmem := List.mem_filter.mp he
  apply h e hmem.1
  have hp := hmem.2
  simp only [Bool.or_eq_true, beq_iff_eq] at hp
  tauto

/-- A page whose only level keyword sits in a paragraph and a heading. -/
def exDocC10 : Doc :=
  { selTexts := [], scripts := [], infoSections := [], metaTexts := [],
    commitNodes := [], pageText := "",
    elements := [⟨"p", "This is a Beginner course"⟩, ⟨"h2", "Advanced topics"⟩],
    headingSecs := [] }

/-- Witness for claim C10. -/
theorem claim_C10_witness : levelOf exDocC10 = none :=
  claim_C10_level_scan exDocC10 (by decide)

/-! ## Claim C1: the duration cascade -/

/-- None of the guarded scans ever yields the empty string. -/
theorem strat1ScanElems_ne : ∀ ls, strat1ScanElems ls ≠ some "" := by
  intro ls
  induction ls with
  | nil => simp [strat1ScanElems]
  | cons raw rest ih =>
    intro hco
    simp only [strat1ScanElems] at hco
    cases hE : extract_duration_like (clean_text (some raw)) with
    | none => simp only [hE] at hco; exact ih hco
    | some d =>
      simp only [hE] at hco
      by_cases hcond : (d != "" && decide (d.length < 50)) = true
      · rw [if_pos hcond] at hco
        injection hco with hdd
        rw [hdd] at hcond
        simp at hcond
      · rw [if_neg hcond] at hco
        exact ih hco

theorem strat1Scan_ne : ∀ ls, strat1Scan ls ≠ some "" := by
  intro ls
  induction ls with
  | nil => simp [strat1Scan]
  | cons sel rest ih =>
    intro hco
    simp only [strat1Scan] at hco
    cases hE : strat1ScanElems sel with
    | none => simp only [hE] at hco; exact ih hco
    | some d =>
      simp only [hE] at hco
      injection hco with hdd
      rw [hdd] at hE
      exact strat1ScanElems_ne sel hE

theorem strat3ScanElems_ne : ∀ ls, strat3ScanElems ls ≠ some "" := by
  intro ls
  induction ls with
  | nil => simp [strat3ScanElems]
  | cons el rest ih =>
    intro hco
    simp only [strat3ScanElems] at hco
    by_cases hg : hasNumUnit (clean_text (some el.text)) = true
    · rw [if_pos hg] at hco
      cases hE : extract_duration_like (clean_text (some el.text)) with
      | none => simp only [hE] at hco; exact ih hco
      | some d =>
        simp only [hE] at hco
        by_cases hcond : (d != "" && decide (d.length < 50)) = true
        · rw [if_pos hcond] at hco
          injection hco with hdd
          rw [hdd] at hcond
          simp at hcond
        · rw [if_neg hcond] at hco
          exact ih hco
    · rw [if_neg hg] at hco
      exact ih hco

theorem strat3Scan_ne : ∀ ls, strat3Scan ls ≠ some "" := by
  intro ls
  induction ls with
  | nil => simp [strat3Scan]
  | cons sec rest ih =>
    intro hco
    simp only [strat3Scan] at hco
    cases hE : strat3ScanElems (sectionElems sec) with
    | none => simp only [hE] at hco; exact ih hco
    | some d =>
      simp only [hE] at hco
      injection hco with hdd
      rw [hdd] at hE
      exact strat3ScanElems_ne (sectionElems sec) hE

theorem strat4ScanElems_ne : ∀ ls, strat4ScanElems ls ≠ some "" := by
  intro ls
  induction ls with
  | nil => simp [strat4ScanElems]
  | cons raw rest ih =>
    intro hco
    simp only [strat4ScanElems] at hco
    cases hE : parse_duration_from_text (clean_text (some raw)) with
    | none => simp only [hE] at hco; exact ih hco
    | some d =>
      simp only [hE] at hco
      by_cases hcond : (d != "") = true
      · rw [if_pos hcond] at hco
        injection hco with hdd
        rw [hdd] at hcond
        simp at hcond
      · rw [if_neg hcond] at hco
        exact ih hco

theorem strat4Scan_ne : ∀ ls, strat4Scan ls ≠ some "" := by
  intro ls
  induction ls with
  | nil => simp [strat4Scan]
  | cons sel rest ih =>
    intro hco
    simp only [strat4Scan] at hco
    cases hE : strat4ScanElems sel with
    | none => simp only [hE] at hco; exact ih hco
    | some d =>
      simp only [hE] at hco
      injection hco with hdd
      rw [hdd] at hE
      exact strat4ScanElems_ne sel hE

theorem strat5Sibs_ne : ∀ ls, strat5Sibs ls ≠ some "" := by
  intro ls
  induction ls with
  | nil => simp [strat5Sibs]
  | cons s rest ih =>
    intro hco
    simp only [strat5Sibs] at hco
    cases hE : parse_duration_from_text (clean_text (some s)) with
    | none => simp only [hE] at hco; exact ih hco
    | some d =>
      simp only [hE] at hco
      by_cases hcond : (d != "") = true
      · rw [if_pos hcond] at hco
        injection hco with hdd
        rw [hdd] at hcond
        simp at hcond
      · rw [if_neg hcond] at hco
        exact ih hco

theorem strat5Nodes_ne : ∀ ls, strat5Nodes ls ≠ some "" := by
  intro ls
  induction ls with
  | nil => simp [strat5Nodes]
  | cons node rest ih =>
    intro hco
    simp only [strat5Nodes] at hco
    cases hE : strat5Sibs (node.1 :: node.2.take 3) with
    | none => simp only [hE] at hco; exact ih hco
    | some d =>
      simp only [hE] at hco
      injection hco with hdd
      rw [hdd] at hE
      exact strat5Sibs_ne _ hE

theorem strat5Groups_ne : ∀ ls, strat5Groups ls ≠ some "" := by
  intro ls
  induction ls with
  | nil => simp [strat5Groups]
  | cons g rest ih =>
    intro hco
    simp only [strat5Groups] at hco
    cases hE : strat5Nodes g with
    | none => simp only [hE] at hco; exact ih hco
    | some d =>
      simp only [hE] at hco
      injection hco with hdd
      rw [hdd] at hE
      exact strat5Nodes_ne g hE

theorem strat6Scan_ne : ∀ ls, strat6Scan ls ≠ some "" := by
  intro ls
  induction ls with
  | nil => simp [strat6Scan]
  | cons el rest ih =>
    intro hco
    simp only [strat6Scan] at hco
    cases hE : parse_duration_from_text (clean_text (some el.text)) with
    | none => simp only [hE] at hco; exact ih hco
    | some d =>
      simp only [hE] at hco
      by_cases hcond : (d != "") = true
      · rw [if_pos hcond] at hco
        injection hco with hdd
        rw [hdd] at hcond
        simp at hcond
      · rw [if_neg hcond] at hco
        exact ih hco

theorem strat8Scan_ne : ∀ ls, strat8Scan ls ≠ some "" := by
  intro ls
  induction ls with
  | nil => simp [strat8Scan]
  | cons el rest ih =>
    intro hco
    simp only [strat8Scan] at hco
    by_cases hlen : (decide (5 < (clean_text (some el.text)).length) &&
        decide ((clean_text (some el.text)).length < 100)) = true
    · rw [if_pos hlen] at hco
      cases hE : parse_duration_from_text (clean_text (some el.text)) with
      | none => simp only [hE] at hco; exact ih hco
      | some d =>
        simp only [hE] at hco
        by_cases hcond : (d != "") = true
        · rw [if_pos hcond] at hco
          injection hco with hdd
          rw [hdd] at hcond
          simp at hcond
        · rw [if_neg hcond] at hco
          exact ih hco
    · rw [if_neg hlen] at hco
      exact ih hco

/-! ## Strategy 7 never yields the empty string -/

theorem sfx_length_le {a b : List Char} (h : List.IsSuffix a b) :
    a.length ≤ b.length := by
  obtain ⟨t, ht⟩ := h
  rw [← ht]
  simp

theorem numM_elim {l r : List Char} (h : numM l = some r) :
    ∃ c t, l = c :: t ∧ isDigitChar c = true ∧ List.IsSuffix r t := by
  cases l with
  | nil => simp [numM] at h
  | cons c t =>
    by_cases hc : isDigitChar c = true
    · simp [numM, hc] at h
      exact ⟨c, t, rfl, hc,
        h ▸ List.IsSuffix.trans (fracOpt_sfx (digitRun t)) (sfx_dropWhile _ t)⟩
    · simp [numM, hc] at h

theorem litM_elim {p : Char} {pr l r : List Char} (h : litM (p :: pr) l = some r) :
    ∃ c t, l = c :: t ∧ lowerChar c = lowerChar p ∧ List.IsSuffix r t := by
  cases l with
  | nil => simp [litM] at h
  | cons c t =>
    by_cases hc : (lowerChar c == lowerChar p) = true
    · simp only [litM, hc, if_true] at h
      exact ⟨c, t, rfl, eq_of_beq hc, litM_sfx pr t r h⟩
    · simp [litM, hc] at h

theorem lowerChar_ws {c : Char} (h : isWsChar c = true) : lowerChar c = c := by
  have hc : c = ' ' ∨ c = '\t' ∨ c = '\n' ∨ c = '\r' ∨
      c = Char.ofNat 11 ∨ c = Char.ofNat 12 := by
    simpa [isWsChar, or_assoc] using h
  rcases hc with h1 | h1 | h1 | h1 | h1 | h1 <;> (subst h1; decide)

theorem isWsChar_false_of_digit {c : Char} (h : isDigitChar c = true) :
    isWsChar c = false := by
  cases hw : isWsChar c with
  | false => rfl
  | true =>
    have hc : c = ' ' ∨ c = '\t' ∨ c = '\n' ∨ c = '\r' ∨
        c = Char.ofNat 11 ∨ c = Char.ofNat 12 := by
      simpa [isWsChar, or_assoc] using hw
    rcases hc with h1 | h1 | h1 | h1 | h1 | h1 <;>
      (subst h1; exact absurd h (by decide))

theorem isWsChar_false_of_lower_c {c : Char} (h : lowerChar c = lowerChar 'c') :
    isWsChar c = false := by
  cases hw : isWsChar c with
  | false => rfl
  | true =>
    have hc := lowerChar_ws hw
    rw [hc] at h
    have h2 : c = 'c' := h.trans (by decide)
    rw [h2] at hw
    exact absurd hw (by decide)

theorem optS_sfx (l : List Char) : List.IsSuffix (optS l) l := by
  cases l with
  | nil => exact ⟨[], rfl⟩
  | cons c r =>
    by_cases hc : (lowerChar c == 's') = true
    · have : optS (c :: r) = r := by simp [optS, hc]
      rw [this]
      exact ⟨[c], rfl⟩
    · have : optS (c :: r) = c :: r := by simp [optS, hc]
      rw [this]

theorem hourUnit7_sfx {l r : List Char} (h : hourUnit7 l = some r) :
    List.IsSuffix r l := by
  simp only [hourUnit7] at h
  cases h1 : litM "hour".data l with
  | some r1 =>
    simp only [h1] at h
    injection h with h2
    rw [← h2]
    exact List.IsSuffix.trans (optS_sfx r1) (litM_sfx _ l r1 h1)
  | none =>
    simp only [h1] at h
    cases h2 : litM "hr".data l with
    | some r1 =>
      simp only [h2] at h
      injection h with h3
      rw [← h3]
      exact List.IsSuffix.trans (optS_sfx r1) (litM_sfx _ l r1 h2)
    | none => simp only [h2] at h; simp at h

theorem perWeekMand_sfx {l r : List Char} (h : perWeekMand l = some r) :
    List.IsSuffix r l := by
  simp only [perWeekMand] at h
  cases h1 : litM "per".data l with
  | some r2 =>
    simp only [h1] at h
    cases h2 : litM "week".data (wsRun r2) with
    | some r3 =>
      simp only [h2] at h
      injection h with h3
      rw [← h3]
      exact List.IsSuffix.trans (litM_sfx _ _ r3 h2)
        (List.IsSuffix.trans (sfx_dropWhile _ r2) (litM_sfx _ l r2 h1))
    | none =>
      simp only [h2] at h
      exact litM_sfx _ l r h
  | none =>
    simp only [h1] at h
    exact litM_sfx _ l r h

theorem unitQ2_sfx {l r : List Char} (h : unitQ2 l = some r) :
    List.IsSuffix r l := by
  simp only [unitQ2] at h
  cases h1 : litM "week".data l with
  | some r1 =>
    simp only [h1] at h
    injection h with h2
    rw [← h2]
    exact List.IsSuffix.trans (optS_sfx r1) (litM_sfx _ l r1 h1)
  | none =>
    simp only [h1] at h
    cases h2 : litM "month".data l with
    | some r1 =>
      simp only [h2] at h
      injection h with h3
      rw [← h3]
      exact List.IsSuffix.trans (optS_sfx r1) (litM_sfx _ l r1 h2)
    | none =>
      simp only [h2] at h
      cases h3 : litM "day".data l with
      | some r1 =>
        simp only [h3] at h
        injection h with h4
        rw [← h4]
        exact List.IsSuffix.trans (optS_sfx r1) (litM_sfx _ l r1 h3)
      | none => simp only [h3] at h; simp at h

theorem unitQ3_sfx {l r : List Char} (h : unitQ3 l = some r) :
    List.IsSuffix r l := by
  simp only [unitQ3] at h
  cases h1 : litM "week".data l with
  | some r1 =>
    simp only [h1] at h
    injection h with h2
    rw [← h2]
    exact List.IsSuffix.trans (optS_sfx r1) (litM_sfx _ l r1 h1)
  | none =>
    simp only [h1] at h
    cases h2 : litM "month".data l with
    | some r1 =>
      simp only [h2] at h
      injection h with h3
      rw [← h3]
      exact List.IsSuffix.trans (optS_sfx r1) (litM_sfx _ l r1 h2)
    | none => simp only [h2] at h; simp at h

theorem tailQ3_sfx {l r : List Char} (h : tailQ3 l = some r) :
    List.IsSuffix r l := by
  simp only [tailQ3] at h
  cases h1 : litM "to".data l with
  | some r2 =>
    simp only [h1] at h
    cases h2 : litM "complete".data (wsRun r2) with
    | some r3 =>
      simp only [h2] at h
      injection h with h3
      rw [← h3]
      exact List.IsSuffix.trans (litM_sfx _ _ r3 h2)
        (List.IsSuffix.trans (sfx_dropWhile _ r2) (litM_sfx _ l r2 h1))
    | none =>
      simp only [h2] at h
      cases h3 : litM "duration".data l with
      | some r3 =>
        simp only [h3] at h
        injection h with h4
        rw [← h4]
        exact litM_sfx _ l r3 h3
      | none =>
        simp only [h3] at h
        exact litM_sfx _ l r h
  | none =>
    simp only [h1] at h
    cases h3 : litM "duration".data l with
    | some r3 =>
      simp only [h3] at h
      injection h with h4
      rw [← h4]
      exact litM_sfx _ l r3 h3
    | none =>
      simp only [h3] at h
      exact litM_sfx _ l r h

theorem toOpt_sfx (l : List Char) : List.IsSuffix (toOpt l) l := by
  simp only [toOpt]
  cases h1 : litM "to".data l with
  | some rt =>
    exact List.IsSuffix.trans (sfx_dropWhile _ rt) (litM_sfx _ l rt h1)
  | none => exact ⟨[], rfl⟩

theorem numOpt_sfx (l : List Char) : List.IsSuffix (numOpt l) l := by
  simp only [numOpt]
  cases h1 : numM l with
  | some rn => exact numM_sfx h1
  | none => exact ⟨[], rfl⟩

theorem q1Rest_sfx {l r : List Char} (h : q1Rest l = some r) :
    List.IsSuffix r l := by
  simp only [q1Rest] at h
  cases h1 : hourUnit7 (wsRun (numOpt (toOpt (wsRun l)))) with
  | none => simp only [h1] at h; simp at h
  | some r5 =>
    simp only [h1] at h
    exact List.IsSuffix.trans (perWeekMand_sfx h)
      (List.IsSuffix.trans (sfx_dropWhile _ r5)
        (List.IsSuffix.trans (hourUnit7_sfx h1)
          (List.IsSuffix.trans (sfx_dropWhile _ _)
            (List.IsSuffix.trans (numOpt_sfx _)
              (List.IsSuffix.trans (toOpt_sfx _) (sfx_dropWhile _ l))))))

/-- Any q1 match starts at a digit and consumes at least that digit. -/
theorem q1M_head {s r : List Char} (h : q1M s = some r) :
    ∃ c t, s = c :: t ∧ isWsChar c = false ∧ List.IsSuffix r t := by
  simp only [q1M] at h
  cases hn : numM s with
  | none => simp only [hn] at h; simp at h
  | some r1 =>
    simp only [hn] at h
    obtain ⟨c, t, hct, hdig, hsfx1⟩ := numM_elim hn
    exact ⟨c, t, hct, isWsChar_false_of_digit hdig,
      List.IsSuffix.trans (q1Rest_sfx h) hsfx1⟩

/-- Any q2 match starts at the letter of "complete" and consumes it. -/
theorem q2M_head {s r : List Char} (h : q2M s = some r) :
    ∃ c t, s = c :: t ∧ isWsChar c = false ∧ List.IsSuffix r t := by
  simp only [q2M] at h
  cases hc : litM "complete".data s with
  | none => simp only [hc] at h; simp at h
  | some r1 =>
    simp only [hc] at h
    have hc' : litM ('c' :: "omplete".data) s = some r1 := hc
    obtain ⟨c, t, hct, hlow, hsfx1⟩ := litM_elim hc'
    refine ⟨c, t, hct, isWsChar_false_of_lower_c hlow, ?_⟩
    cases hi : litM "in".data (wsRun r1) with
    | none => simp only [hi] at h; simp at h
    | some r2 =>
      simp only [hi] at h
      cases hn : numM (wsRun r2) with
      | none => simp only [hn] at h; simp at h
      | some r3 =>
        simp only [hn] at h
        exact List.IsSuffix.trans (unitQ2_sfx h)
          (List.IsSuffix.trans (sfx_dropWhile _ r3)
            (List.IsSuffix.trans (numM_sfx hn)
              (List.IsSuffix.trans (sfx_dropWhile _ r2)
                (List.IsSuffix.trans (litM_sfx _ _ r2 hi)
                  (List.IsSuffix.trans (sfx_dropWhile _ r1) hsfx1)))))

/-- Any q3 match starts at a digit and consumes it. -/
theorem q3M_head {s r : List Char} (h : q3M s = some r) :
    ∃ c t, s = c :: t ∧ isWsChar c = false ∧ List.IsSuffix r t := by
  simp only [q3M] at h
  cases hn : numM s with
  | none => simp only [hn] at h; simp at h
  | some r1 =>
    simp only [hn] at h
    obtain ⟨c, t, hct, hdig, hsfx1⟩ := numM_elim hn
    refine ⟨c, t, hct, isWsChar_false_of_digit hdig, ?_⟩
    cases hu : unitQ3 (wsRun r1) with
    | none => simp only [hu] at h; simp at h
    | some r2 =>
      simp only [hu] at h
      exact List.IsSuffix.trans (tailQ3_sfx h)
        (List.IsSuffix.trans (sfx_dropWhile _ r2)
          (List.IsSuffix.trans (unitQ3_sfx hu)
            (List.IsSuffix.trans (sfx_dropWhile _ r1) hsfx1)))

theorem stripWs_ne_nil_of_head {c : Char} {r : List Char} (hc : isWsChar c = false) :
    stripWs (c :: r) ≠ [] := by
  unfold stripWs
  have h1 : trimLeadWs (c :: r) = c :: r :=
    trimLeadWs_eq_self (Or.inr ⟨c, r, rfl, by simp [hc]⟩)
  rw [h1]
  cases htr : trimTrailWs r with
  | nil => simp [trimTrailWs, htr, hc]
  | cons b r' => simp [trimTrailWs, htr]

/-- The stripped group(0) of a search hit is never empty when every match
starts at a non-whitespace character that it consumes. -/
theorem searchM_strip_ne (m : List Char → Option (List Char))
    (hm : ∀ s r, m s = some r →
      ∃ c t, s = c :: t ∧ isWsChar c = false ∧ List.IsSuffix r t) :
    ∀ l v, searchM m l = some v → stripWs v ≠ [] := by
  intro l
  induction l with
  | nil =>
    intro v h
    simp only [searchM] at h
    cases hme : m [] with
    | none => rw [hme] at h; simp at h
    | some w =>
      obtain ⟨c, t, hct, _, _⟩ := hm [] w hme
      simp at hct
  | cons a r ih =>
    intro v h
    simp only [searchM] at h
    cases hme : m (a :: r) with
    | some rest =>
      simp only [hme] at h
      obtain ⟨c, t, hct, hcw, hsfx⟩ := hm (a :: r) rest hme
      injection hct with h1 h2
      have hlen : rest.length ≤ r.length := by
        rw [h2]
        exact sfx_length_le hsfx
      injection h with h3
      have htake : (a :: r).length - rest.length = (r.length - rest.length) + 1 := by
        simp only [List.length_cons]
        omega
      have hv : v = a :: r.take (r.length - rest.length) := by
        rw [← h3, htake]
        rfl
      rw [hv]
      exact stripWs_ne_nil_of_head (h1 ▸ hcw)
    | none =>
      rw [hme] at h
      exact ih v h

theorem strat7_ne (doc : Doc) : strat7 doc ≠ some "" := by
  intro hco
  simp only [strat7] at hco
  cases h1 : searchM q1M (clean_text (some doc.pageText)).data with
  | some m =>
    simp only [h1] at hco
    injection hco with h2
    apply searchM_strip_ne q1M (fun s r h => q1M_head h) _ m h1
    have h3 : (String.mk (stripWs m)).data = ("" : String).data := by rw [h2]
    simpa using h3
  | none =>
    simp only [h1] at hco
    cases h2 : searchM q2M (clean_text (some doc.pageText)).data with
    | some m =>
      simp only [h2] at hco
      injection hco with h3
      apply searchM_strip_ne q2M (fun s r h => q2M_head h) _ m h2
      have h4 : (String.mk (stripWs m)).data = ("" : String).data := by rw [h3]
      simpa using h4
    | none =>
      simp only [h2] at hco
      cases h3 : searchM q3M (clean_text (some doc.pageText)).data with
      | some m =>
        simp only [h3] at hco
        injection hco with h4
        apply searchM_strip_ne q3M (fun s r h => q3M_head h) _ m h3
        have h5 : (String.mk (stripWs m)).data = ("" : String).data := by rw [h4]
        simpa using h5
      | none => simp only [h3] at hco; simp at hco

theorem strat1_ne (doc : Doc) : strat1 doc ≠ some "" := strat1Scan_ne doc.selTexts

theorem strat3_ne (doc : Doc) : strat3 doc ≠ some "" := strat3Scan_ne doc.infoSections

theorem strat4_ne (doc : Doc) : strat4 doc ≠ some "" := strat4Scan_ne doc.metaTexts

theorem strat5_ne (doc : Doc) : strat5 doc ≠ some "" := strat5Groups_ne doc.commitNodes

theorem strat6_ne (doc : Doc) : strat6 doc ≠ some "" := strat6Scan_ne (headElems doc)

theorem strat8_ne (doc : Doc) : strat8 doc ≠ some "" := strat8Scan_ne (bodyElems doc)

/-! ## The cascade equals first-accepted-strategy-wins -/

/-- The first non-none entry, the spec reading of a cascade. -/
def firstSome : List (Option String) → Option String
  | [] => none
  | o :: rest =>
    match o with
    | some v => some v
    | none => firstSome rest

theorem foldl_stepStrat_truthy :
    ∀ (opts : List (Option String)) (acc : Option String), truthy acc = true →
    List.foldl stepStrat acc opts = acc := by
  intro opts
  induction opts with
  | nil => intro acc _; rfl
  | cons o rest ih =>
    intro acc hacc
    have hstep : stepStrat acc o = acc := by simp [stepStrat, hacc]
    simp only [List.foldl_cons, hstep]
    exact ih acc hacc

theorem foldl_stepStrat_none :
    ∀ opts : List (Option String), (∀ o ∈ opts, o ≠ some "") →
    List.foldl stepStrat none opts = firstSome opts := by
  intro opts
  induction opts with
  | nil => intro _; rfl
  | cons o rest ih =>
    intro h
    cases o with
    | none =>
      have hstep : stepStrat none none = none := rfl
      simp only [List.foldl_cons, hstep, firstSome]
      exact ih (fun o' ho' => h o' (List.mem_cons_of_mem _ ho'))
    | some v =>
      have hv : v ≠ "" := by
        intro he
        exact h (some v) (by simp) (by rw [he])
      have hstep : stepStrat none (some v) = some v := rfl
      have htr : truthy (some v) = true := by simp [truthy, hv]
      simp only [List.foldl_cons, hstep, firstSome]
      exact foldl_stepStrat_truthy rest (some v) htr

theorem durationOf_eq_foldl (doc : Doc) :
    durationOf doc = List.foldl stepStrat none
      [strat1 doc, strat2 doc, strat3 doc, strat4 doc,
       strat5 doc, strat6 doc, strat7 doc, strat8 doc] := rfl

/-- Corrected claim C1: as long as strategy 2 does not produce the falsy
empty string, the duration cascade tries the 8 strategies strictly in
order and returns the first strategy's accepted result — where the
50-character cap is part of the acceptance of strategies 1 and 3 only (and
those caps reject length ≥ 50); strategies 2 and 4-8 accept without a
length cap.  In particular a structured-data (strategy 2) hit beats every
later strategy. -/
theorem claim_C1_duration_cascade :
    ∀ doc : Doc, strat2 doc ≠ some "" →
      (durationOf doc = firstSome [strat1 doc, strat2 doc, strat3 doc, strat4 doc,
          strat5 doc, strat6 doc, strat7 doc, strat8 doc] ∧
       ∀ v, strat1 doc = none → strat2 doc = some v → durationOf doc = some v) := by
  intro doc h2
  have hall : ∀ o ∈ [strat1 doc, strat2 doc, strat3 doc, strat4 doc,
      strat5 doc, strat6 doc, strat7 doc, strat8 doc], o ≠ some "" := by
    intro o ho
    simp only [List.mem_cons, List.not_mem_nil, or_false] at ho
    rcases ho with h | h | h | h | h | h | h | h
    · subst h; exact strat1_ne doc
    · subst h; exact h2
    · subst h; exact strat3_ne doc
    · subst h; exact strat4_ne doc
    · subst h; exact strat5_ne doc
    · subst h; exact strat6_ne doc
    · subst h; exact strat7_ne doc
    · rw [h]; exact strat8_ne doc
  have heq : durationOf doc = firstSome [strat1 doc, strat2 doc, strat3 doc,
      strat4 doc, strat5 doc, strat6 doc, strat7 doc, strat8 doc] := by
    rw [durationOf_eq_foldl]
    exact foldl_stepStrat_none _ hall
  refine ⟨heq, ?_⟩
  intro v h1 hv
  rw [heq, h1, hv]
  rfl

/-- A 60-character structured-data duration value. -/
def longDur : String := "This course is estimated to take a very long time to finish!"

/-- A page where strategy 1 finds nothing, the structured-data block
carries the long value, and a generic element carries a short
regex-matchable duration. -/
def exDocC1 : Doc :=
  { selTexts := [],
    scripts := [some ⟨some longDur, none⟩],
    infoSections := [], metaTexts := [], commitNodes := [], pageText := "",
    elements := [⟨"span", "Learn in 5 weeks"⟩],
    headingSecs := [] }

/-- Counterexample to claim C1 as stated: the 60-character strategy-2 value
is returned even though its length exceeds 50, and is not rejected in
favour of the later strategy's short result. -/
theorem claim_C1_counterexample :
    durationOf exDocC1 = some longDur ∧
    longDur.length = 60 ∧
    strat8 exDocC1 = some "5 week" := by
  refine ⟨by decide, by decide, by decide⟩

/-- Witness for the corrected claim C1: strategy 2 wins over strategy 8 on
the same page, by applying the claim theorem. -/
theorem claim_C1_witness : durationOf exDocC1 = some longDur :=
  (claim_C1_duration_cascade exDocC1 (by decide)).2 longDur (by decide) (by decide)

/-! ## Claim C5: the concepts list -/

theorem contains_cons_eq (a c : String) (seen : List String) :
    (a :: seen).contains c = ((a == c) || seen.contains c) := by
  rw [List.contains_cons]
  cases h : a == c with
  | true => simp [eq_of_beq h]
  | false =>
    cases h2 : c == a with
    | true => rw [eq_of_beq h2] at h; simp at h
    | false => simp

theorem dedupStrGo_not_seen : ∀ (l seen : List String),
    ∀ c ∈ dedupStrGo l seen, seen.contains c = false := by
  intro l
  induction l with
  | nil => intro seen c hc; simp [dedupStrGo] at hc
  | cons a r ih =>
    intro seen c hc
    by_cases ha : seen.contains a = true
    · rw [show dedupStrGo (a :: r) seen = dedupStrGo r seen from by
        simp only [dedupStrGo]; rw [if_pos ha]] at hc
      exact ih seen c hc
    · rw [show dedupStrGo (a :: r) seen = a :: dedupStrGo r (a :: seen) from by
        simp only [dedupStrGo]; rw [if_neg ha]] at hc
      rcases List.mem_cons.mp hc with h | h
      · subst h; simpa using ha
      · have := ih (a :: seen) c h
        rw [contains_cons_eq] at this
        exact (Bool.or_eq_false_iff.mp this).2

theorem dedupStrGo_nodup : ∀ (l seen : List String), (dedupStrGo l seen).Nodup := by
  intro l
  induction l with
  | nil => intro seen; simp [dedupStrGo]
  | cons a r ih =>
    intro seen
    by_cases ha : seen.contains a = true
    · rw [show dedupStrGo (a :: r) seen = dedupStrGo r seen from by
        simp only [dedupStrGo]; rw [if_pos ha]]
      exact ih seen
    · rw [show dedupStrGo (a :: r) seen = a :: dedupStrGo r (a :: seen) from by
        simp only [dedupStrGo]; rw [if_neg ha]]
      refine List.nodup_cons.mpr ⟨?_, ih (a :: seen)⟩
      intro hmem
      have := dedupStrGo_not_seen r (a :: seen) a hmem
      rw [contains_cons_eq] at this
      simp at this

theorem dedupStrGo_eq_self : ∀ (l seen : List String), l.Nodup →
    (∀ c ∈ l, seen.contains c = false) → dedupStrGo l seen = l := by
  intro l
  induction l with
  | nil => intro seen _ _; rfl
  | cons a r ih =>
    intro seen hnd hns
    have ha : seen.contains a = false := hns a (by simp)
    rw [show dedupStrGo (a :: r) seen = a :: dedupStrGo r (a :: seen) from by
      simp only [dedupStrGo]; rw [if_neg (by rw [ha]; simp)]]
    rw [ih (a :: seen) (List.nodup_cons.mp hnd).2]
    intro c hc
    rw [contains_cons_eq]
    have hac : (a == c) = false := by
      cases hq : a == c with
      | false => rfl
      | true =>
        exact absurd (eq_of_beq hq ▸ hc) (List.nodup_cons.mp hnd).1
    rw [hac, hns c (List.mem_cons_of_mem a hc)]
    rfl

theorem dedupStr_idem (l : List String) : dedupStr (dedupStr l) = dedupStr l := by
  unfold dedupStr
  apply dedupStrGo_eq_self
  · exact dedupStrGo_nodup l []
  · intro c _; rfl

theorem dedupStrGo_seen_congr : ∀ (l seen1 seen2 : List String),
    (∀ c, seen1.contains c = seen2.contains c) →
    dedupStrGo l seen1 = dedupStrGo l seen2 := by
  intro l
  induction l with
  | nil => intro _ _ _; rfl
  | cons a r ih =>
    intro seen1 seen2 h
    simp only [dedupStrGo, h a]
    by_cases ha : seen2.contains a = true
    · rw [if_pos ha, if_pos ha]
      exact ih seen1 seen2 h
    · rw [if_neg ha, if_neg ha]
      rw [ih (a :: seen1) (a :: seen2)
        (fun c => by rw [contains_cons_eq, contains_cons_eq, h c])]

theorem contains_append_singleton (acc : List String) (k c : String) :
    (acc ++ [k]).contains c = (k :: acc).contains c := by
  induction acc with
  | nil => rfl
  | cons a r ih =>
    rw [List.cons_append, contains_cons_eq, ih,
        contains_cons_eq, contains_cons_eq, contains_cons_eq]
    cases a == c <;> cases k == c <;> cases r.contains c <;> rfl

/-- The inline dedup-append loop equals the canonical first-occurrence
dedup of the filtered key stream, continued after the accumulator. -/
theorem foldl_addIf {α : Type} (key : α → String) (cond : String → Bool) :
    ∀ (xs : List α) (acc : List String),
    xs.foldl (addIf key cond) acc =
      acc ++ dedupStrGo ((xs.map key).filter cond) acc := by
  intro xs
  induction xs with
  | nil => intro acc; simp [dedupStrGo]
  | cons x rest ih =>
    intro acc
    simp only [List.foldl_cons]
    cases hcond : cond (key x) with
    | true =>
      have hfil : ((x :: rest).map key).filter cond =
          key x :: (rest.map key).filter cond := by
        simp [List.filter_cons, hcond]
      cases hmem : acc.contains (key x) with
      | true =>
        have hb : (cond (key x) && !(acc.contains (key x))) = false := by
          rw [hcond, hmem]; rfl
        have hstep : addIf key cond acc x = acc := by
          simp only [addIf]
          rw [if_neg (by rw [hb]; simp)]
        rw [hstep, ih acc, hfil]
        rw [show dedupStrGo (key x :: (rest.map key).filter cond) acc =
            dedupStrGo ((rest.map key).filter cond) acc from by
          simp only [dedupStrGo]; rw [if_pos hmem]]
      | false =>
        have hb : (cond (key x) && !(acc.contains (key x))) = true := by
          rw [hcond, hmem]; rfl
        have hstep : addIf key cond acc x = acc ++ [key x] := by
          simp only [addIf]
          rw [if_pos hb]
        rw [hstep, ih (acc ++ [key x]), hfil]
        rw [show dedupStrGo (key x :: (rest.map key).filter cond) acc =
            key x :: dedupStrGo ((rest.map key).filter cond) (key x :: acc) from by
          simp only [dedupStrGo]; rw [if_neg (by rw [hmem]; simp)]]
        rw [dedupStrGo_seen_congr ((rest.map key).filter cond) (acc ++ [key x])
          (key x :: acc) (fun c => contains_append_singleton acc (key x) c)]
        simp
    | false =>
      have hb : (cond (key x) && !(acc.contains (key x))) = false := by
        rw [hcond]; rfl
      have hstep : addIf key cond acc x = acc := by
        simp only [addIf]
        rw [if_neg (by rw [hb]; simp)]
      have hfil : ((x :: rest).map key).filter cond =
          (rest.map key).filter cond := by
        simp [List.filter_cons, hcond]
      rw [hstep, ih acc, hfil]

theorem foldl_foldl_flatten {α : Type} (f : List String → α → List String) :
    ∀ (L : List (List α)) (acc : List String),
    L.foldl (fun a l => l.foldl f a) acc = L.flatten.foldl f acc := by
  intro L
  induction L with
  | nil => intro acc; rfl
  | cons l rest ih =>
    intro acc
    simp only [List.foldl_cons, List.flatten_cons, List.foldl_append]
    exact ih (l.foldl f acc)

/-- The strategy-A item stream: flattened harvested list items, cleaned,
nonempty. -/
def streamA (doc : Doc) : List String :=
  (((target_sections doc).flatten).map (fun i => clean_text (some i))).filter
    (fun t => t != "")

/-- The strategy-B chip stream: cleaned chip texts passing the chip filter. -/
def streamB (doc : Doc) : List String :=
  ((chipElems doc).map (fun el => clean_text (some el.text))).filter chipOk

/-- The pre-dedup concept stream the extractor consumes. -/
def rawConceptStream (doc : Doc) : List String :=
  if (stratAConcepts doc).isEmpty then streamB doc else streamA doc

theorem stratAConcepts_eq (doc : Doc) :
    stratAConcepts doc = dedupStr (streamA doc) := by
  unfold stratAConcepts
  rw [foldl_foldl_flatten]
  rw [foldl_addIf]
  rfl

theorem stratBConcepts_eq (doc : Doc) :
    stratBConcepts doc = dedupStr (streamB doc) := by
  unfold stratBConcepts
  rw [foldl_addIf]
  rfl

/-- Claim C5: the concepts list has no duplicates, preserves first-seen
order (it is the first-occurrence dedup of the extractor's item stream)
and is capped at 30; a page yielding 45 distinct items produces exactly
the first 30 in order. -/
theorem conceptsOf_eq_stream (doc : Doc) :
    conceptsOf doc = (dedupStr (rawConceptStream doc)).take 30 := by
  have h1 : conceptsOf doc =
      (dedupStr (if (stratAConcepts doc).isEmpty then stratBConcepts doc
        else stratAConcepts doc)).take 30 := rfl
  have h2 : rawConceptStream doc =
      (if (stratAConcepts doc).isEmpty then streamB doc else streamA doc) := rfl
  rw [h1, h2]
  by_cases hA : (stratAConcepts doc).isEmpty = true
  · rw [if_pos hA, if_pos hA, stratBConcepts_eq, dedupStr_idem]
  · rw [if_neg hA, if_neg hA, stratAConcepts_eq, dedupStr_idem]

/-- 45 pairwise-distinct nonempty skill items. -/
def items45 : List String :=
  (List.range 45).map (fun n => String.mk ('s' :: List.replicate n 'a'))

/-- The first 30 of them. -/
def items30 : List String :=
  (List.range 30).map (fun n => String.mk ('s' :: List.replicate n 'a'))

def apoStr : String := String.mk [apoC]

/-- A page with a matching heading whose parent holds one list of 45
distinct items. -/
def doc45 : Doc :=
  { selTexts := [], scripts := [], infoSections := [], metaTexts := [],
    commitNodes := [], pageText := "", elements := [],
    headingSecs := [⟨"What you" ++ apoStr ++ "ll learn", [items45], none⟩] }

set_option maxRecDepth 20000 in
/-- Claim C5: the concepts list has no duplicates, preserves first-seen
order (it is the take-30 of the first-occurrence dedup of the extractor's
item stream), and is capped at 30; a page yielding 45 distinct items
produces exactly the first 30 in original order. -/
theorem claim_C5_concepts :
    (∀ doc : Doc,
      (conceptsOf doc).Nodup ∧
      (conceptsOf doc).length ≤ 30 ∧
      conceptsOf doc = (dedupStr (rawConceptStream doc)).take 30) ∧
    conceptsOf doc45 = items30 := by
  constructor
  · intro doc
    refine ⟨?_, ?_, conceptsOf_eq_stream doc⟩
    · rw [conceptsOf_eq_stream doc]
      exact (dedupStrGo_nodup _ _).sublist (List.take_sublist _ _)
    · rw [conceptsOf_eq_stream doc]
      exact List.length_take_le _ _
  · decide

/-! ## Discoverer model (collect_all_course_cards, main.py line 121)

The DOM state at every snapshot is a list of the anchors that the
course-link selector matches; the feed function gives the anchor list the
page shows at each scroll round. -/

/-- An anchor element with class-selected href, its aria-label attribute
and its text content. -/
structure Anchor where
  href : String
  ariaLabel : Option String
  textContent : String

/-- Python `a.get("aria-label") or a.get_text(strip=True)`. -/
def anchorTitle (a : Anchor) : String :=
  match a.ariaLabel with
  | some s => if s = "" then a.textContent else s
  | none => a.textContent

/-- The raw (title, url) pairs before dedup (main.py lines 130-134): keep
anchors whose href starts with /learn/, take aria-label-or-text as title,
keep truthy href and title, clean the title and absolutise the url. -/
def rawLinks (anchors : List Anchor) : List (String × String) :=
  anchors.filterMap (fun a =>
    if startsWithL "/learn/".data a.href.data then
      (if a.href != "" && anchorTitle a != "" then
         some (clean_text (some (anchorTitle a)), "https://www.coursera.org" ++ a.href)
       else none)
    else none)

/-- First-seen url dedup (main.py lines 136-141). -/
def dedupLinks : List (String × String) → List String → List (String × String)
  | [], _ => []
  | (t, u) :: r, seen =>
    if seen.contains u then dedupLinks r seen
    else (t, u) :: dedupLinks r (u :: seen)

/-- One snapshot parse of the search page. -/
def get_links_from_dom (anchors : List Anchor) : List (String × String) :=
  dedupLinks (rawLinks anchors) []

/-! ## Claim C4: the snapshot list is deduplicated by url, first kept -/

theorem dedupLinks_not_seen : ∀ (l : List (String × String)) (seen : List String),
    ∀ p ∈ dedupLinks l seen, seen.contains p.2 = false := by
  intro l
  induction l with
  | nil => intro seen p hp; simp [dedupLinks] at hp
  | cons q r ih =>
    rcases q with ⟨t, u⟩
    intro seen p hp
    by_cases hu : seen.contains u = true
    · rw [show dedupLinks ((t, u) :: r) seen = dedupLinks r seen from by
        simp only [dedupLinks]; rw [if_pos hu]] at hp
      exact ih seen p hp
    · rw [show dedupLinks ((t, u) :: r) seen = (t, u) :: dedupLinks r (u :: seen) from by
        simp only [dedupLinks]; rw [if_neg hu]] at hp
      rcases List.mem_cons.mp hp with h | h
      · subst h; simpa using hu
      · have := ih (u :: seen) p h
        rw [contains_cons_eq] at this
        exact (Bool.or_eq_false_iff.mp this).2

theorem dedupLinks_nodup : ∀ (l : List (String × String)) (seen : List String),
    ((dedupLinks l seen).map Prod.snd).Nodup := by
  intro l
  induction l with
  | nil => intro seen; simp [dedupLinks]
  | cons q r ih =>
    rcases q with ⟨t, u⟩
    intro seen
    by_cases hu : seen.contains u = true
    · rw [show dedupLinks ((t, u) :: r) seen = dedupLinks r seen from by
        simp only [dedupLinks]; rw [if_pos hu]]
      exact ih seen
    · rw [show dedupLinks ((t, u) :: r) seen = (t, u) :: dedupLinks r (u :: seen) from by
        simp only [dedupLinks]; rw [if_neg hu]]
      rw [List.map_cons]
      refine List.nodup_cons.mpr ⟨?_, ih (u :: seen)⟩
      intro hmem
      obtain ⟨p, hp, hpu⟩ := List.mem_map.mp hmem
      have := dedupLinks_not_seen r (u :: seen) p hp
      rw [contains_cons_eq, hpu] at this
      simp at this

theorem dedupLinks_sublist : ∀ (l : List (String × String)) (seen : List String),
    List.Sublist (dedupLinks l seen) l := by
  intro l
  induction l with
  | nil => intro seen; simp [dedupLinks]
  | cons q r ih =>
    rcases q with ⟨t, u⟩
    intro seen
    by_cases hu : seen.contains u = true
    · rw [show dedupLinks ((t, u) :: r) seen = dedupLinks r seen from by
        simp only [dedupLinks]; rw [if_pos hu]]
      exact List.Sublist.cons (t, u) (ih seen)
    · rw [show dedupLinks ((t, u) :: r) seen = (t, u) :: dedupLinks r (u :: seen) from by
        simp only [dedupLinks]; rw [if_neg hu]]
      exact List.Sublist.cons₂ (t, u) (ih (u :: seen))

/-- Membership in the dedup output is exactly being the first occurrence
of an unseen url. -/
theorem dedupLinks_mem_iff : ∀ (l : List (String × String)) (seen : List String)
    (t u : String),
    ((t, u) ∈ dedupLinks l seen ↔
      (seen.contains u = false ∧
       ∃ l1 l2, l = l1 ++ (t, u) :: l2 ∧ ∀ p ∈ l1, p.2 ≠ u)) := by
  intro l
  induction l with
  | nil =>
    intro seen t u
    constructor
    · intro hp; simp [dedupLinks] at hp
    · rintro ⟨-, l1, l2, hsplit, -⟩
      exact absurd hsplit (by simp)
  | cons q r ih =>
    rcases q with ⟨t0, u0⟩
    intro seen t u
    by_cases hu0 : seen.contains u0 = true
    · rw [show dedupLinks ((t0, u0) :: r) seen = dedupLinks r seen from by
        simp only [dedupLinks]; rw [if_pos hu0]]
      rw [ih seen t u]
      constructor
      · rintro ⟨hns, l1, l2, hsplit, hguard⟩
        refine ⟨hns, (t0, u0) :: l1, l2, by rw [hsplit]; rfl, ?_⟩
        intro p hp
        rcases List.mem_cons.mp hp with h | h
        · subst h
          intro he
          have he2 : u0 = u := he
          rw [he2] at hu0
          rw [hu0] at hns
          exact absurd hns (by simp)
        · exact hguard p h
      · rintro ⟨hns, l1, l2, hsplit, hguard⟩
        cases l1 with
        | nil =>
          simp at hsplit
          rcases hsplit with ⟨⟨h1, h2⟩, h3⟩
          rw [← h2] at hns
          rw [hu0] at hns
          exact absurd hns (by simp)
        | cons q1 l1' =>
          rw [List.cons_append] at hsplit
          injection hsplit with hq hrest
          exact ⟨hns, l1', l2, hrest, fun p hp => hguard p (List.mem_cons_of_mem q1 hp)⟩
    · rw [show dedupLinks ((t0, u0) :: r) seen = (t0, u0) :: dedupLinks r (u0 :: seen) from by
        simp only [dedupLinks]; rw [if_neg hu0]]
      constructor
      · intro hp
        rcases List.mem_cons.mp hp with h | h
        · injection h with h1 h2
          subst h1; subst h2
          refine ⟨by simpa using hu0, [], r, rfl, by simp⟩
        · rw [ih (u0 :: seen) t u] at h
          rcases h with ⟨hns, l1, l2, hsplit, hguard⟩
          rw [contains_cons_eq] at hns
          have hns2 := Bool.or_eq_false_iff.mp hns
          refine ⟨hns2.2, (t0, u0) :: l1, l2, by rw [hsplit]; rfl, ?_⟩
          intro p hp2
          rcases List.mem_cons.mp hp2 with h2 | h2
          · subst h2
            intro he
            have he2 : u0 = u := he
            rw [he2] at hns2
            have := hns2.1
            simp at this
          · exact hguard p h2
      · rintro ⟨hns, l1, l2, hsplit, hguard⟩
        cases l1 with
        | nil =>
          simp at hsplit
          rcases hsplit with ⟨⟨h1, h2⟩, h3⟩
          subst h1; subst h2; subst h3
          exact List.mem_cons_self _ _
        | cons q1 l1' =>
          rw [List.cons_append] at hsplit
          injection hsplit with hq hrest
          apply List.mem_cons_of_mem
          rw [ih (u0 :: seen) t u]
          have hq1u : u0 ≠ u := by
            have := hguard q1 (List.mem_cons_self q1 l1')
            rw [← hq] at this
            exact this
          refine ⟨?_, l1', l2, hrest, fun p hp => hguard p (List.mem_cons_of_mem q1 hp)⟩
          rw [contains_cons_eq, hns]
          have : (u0 == u) = false := by
            cases hb : u0 == u with
            | false => rfl
            | true => exact absurd (eq_of_beq hb) hq1u
          rw [this]
          rfl

/-- Claim C4: within a snapshot, every url appears at most once, order is
preserved, and a pair is kept exactly when it is the first occurrence of
its url in the raw link list (so the title is the first occurrence's). -/
theorem claim_C4_link_dedup :
    ∀ anchors : List Anchor,
      ((get_links_from_dom anchors).map Prod.snd).Nodup ∧
      List.Sublist (get_links_from_dom anchors) (rawLinks anchors) ∧
      (∀ t u, (t, u) ∈ get_links_from_dom anchors ↔
        ∃ l1 l2, rawLinks anchors = l1 ++ (t, u) :: l2 ∧ ∀ p ∈ l1, p.2 ≠ u) := by
  intro anchors
  refine ⟨dedupLinks_nodup _ [], dedupLinks_sublist _ [], ?_⟩
  intro t u
  rw [show get_links_from_dom anchors = dedupLinks (rawLinks anchors) [] from rfl]
  rw [dedupLinks_mem_iff]
  constructor
  · rintro ⟨-, h⟩; exact h
  · intro h; exact ⟨rfl, h⟩

/-- Two anchors with the same course url and different titles, plus a
distinct third. -/
def exAnchors : List Anchor :=
  [⟨"/learn/python", some "Python Basics", "ignored"⟩,
   ⟨"/learn/python", some "Python Again", "x"⟩,
   ⟨"/learn/java", none, "Java Course"⟩]

/-- Witness for claim C4: the duplicated url is kept once, with the first
occurrence's title, by applying the claim theorem. -/
theorem claim_C4_witness :
    ("Python Basics", "https://www.coursera.org/learn/python") ∈
      get_links_from_dom exAnchors :=
  ((claim_C4_link_dedup exAnchors).2.2 "Python Basics"
      "https://www.coursera.org/learn/python").mpr
    ⟨[], [("Python Again", "https://www.coursera.org/learn/python"),
          ("Java Course", "https://www.coursera.org/learn/java")],
     by decide, by simp⟩

/-! ## Claim C2: the idle-stall termination of the scroll loop -/

def MAX_IDLE_SCROLLS : Nat := 6

/-- The scroll loop body (main.py lines 148-173), fuel-indexed: each
round re-snapshots, bumps the idle counter when the size did not grow,
resets it on growth, and stops when the counter reaches the threshold.
The round counter r is spec-side bookkeeping: it selects the feed
snapshot and is reported with the result. -/
def collectLoop (feed : Nat → List Anchor) :
    Nat → List (String × String) → Nat → Nat →
    Option (List (String × String) × Nat)
  | 0, _, _, _ => none
  | fuel + 1, results, idle, r =>
    let results' := get_links_from_dom (feed r)
    let idle' := if results'.length ≤ results.length then idle + 1 else 0
    if MAX_IDLE_SCROLLS ≤ idle' then some (results', r)
    else collectLoop feed fuel results' idle' (r + 1)

/-- collect_all_course_cards: initial snapshot at round 0, then loop. -/
def collect_all_course_cards (feed : Nat → List Anchor) (fuel : Nat) :
    Option (List (String × String) × Nat) :=
  collectLoop feed fuel (get_links_from_dom (feed 0)) 0 1

/-- Deduplicated snapshot size at round r. -/
def sizes (feed : Nat → List Anchor) (r : Nat) : Nat :=
  (get_links_from_dom (feed r)).length

/-- The idle counter after round r: incremented on each no-growth round,
reset to zero on growth. -/
def idleA (feed : Nat → List Anchor) : Nat → Nat
  | 0 => 0
  | r + 1 => if sizes feed (r + 1) ≤ sizes feed r then idleA feed r + 1 else 0

/-- Soundness of the loop: a returned round R is the first whose idle
counter reached the threshold. -/
theorem collectLoop_sound (feed : Nat → List Anchor) :
    ∀ (fuel r : Nat) (res : List (String × String)) (idle : Nat)
      (out : List (String × String)) (R : Nat),
      1 ≤ r → res.length = sizes feed (r - 1) → idle = idleA feed (r - 1) →
      collectLoop feed fuel res idle r = some (out, R) →
      r ≤ R ∧ out = get_links_from_dom (feed R) ∧
        MAX_IDLE_SCROLLS ≤ idleA feed R ∧
        ∀ j, r ≤ j → j < R → idleA feed j < MAX_IDLE_SCROLLS := by
  intro fuel
  induction fuel with
  | zero => intro r res idle out R _ _ _ h; simp [collectLoop] at h
  | succ fuel ih =>
    intro r res idle out R hr hlen hidle h
    simp only [collectLoop] at h
    have hcount : (if (get_links_from_dom (feed r)).length ≤ res.length
        then idle + 1 else 0) = idleA feed r := by
      obtain ⟨r', hr'⟩ : ∃ r', r = r' + 1 := ⟨r - 1, by omega⟩
      subst hr'
      simp only [Nat.add_sub_cancel] at hlen hidle
      rw [hlen, hidle]
      rfl
    rw [hcount] at h
    by_cases hstop : MAX_IDLE_SCROLLS ≤ idleA feed r
    · rw [if_pos hstop] at h
      injection h with h2
      injection h2 with h3 h4
      subst h4
      refine ⟨Nat.le_refl r, h3.symm ▸ rfl, hstop, ?_⟩
      intro j hj1 hj2
      omega
    · rw [if_neg hstop] at h
      have := ih (r + 1) (get_links_from_dom (feed r)) (idleA feed r) out R
        (by omega) (by simp [sizes]) (by simp) h
      refine ⟨by omega, this.2.1, this.2.2.1, ?_⟩
      intro j hj1 hj2
      by_cases hjr : j = r
      · subst hjr; omega
      · exact this.2.2.2 j (by omega) hj2

/-- Completeness of the loop: when some reachable round has counter at
the threshold, the loop returns. -/
theorem collectLoop_complete (feed : Nat → List Anchor) :
    ∀ (fuel r : Nat) (res : List (String × String)) (idle : Nat),
      1 ≤ r → res.length = sizes feed (r - 1) → idle = idleA feed (r - 1) →
      (∃ R, r ≤ R ∧ R < r + fuel ∧ MAX_IDLE_SCROLLS ≤ idleA feed R) →
      (collectLoop feed fuel res idle r).isSome = true := by
  intro fuel
  induction fuel with
  | zero =>
    intro r res idle _ _ _ hex
    obtain ⟨R, h1, h2, _⟩ := hex
    omega
  | succ fuel ih =>
    intro r res idle hr hlen hidle hex
    simp only [collectLoop]
    have hcount : (if (get_links_from_dom (feed r)).length ≤ res.length
        then idle + 1 else 0) = idleA feed r := by
      obtain ⟨r', hr'⟩ : ∃ r', r = r' + 1 := ⟨r - 1, by omega⟩
      subst hr'
      simp only [Nat.add_sub_cancel] at hlen hidle
      rw [hlen, hidle]
      rfl
    rw [hcount]
    by_cases hstop : MAX_IDLE_SCROLLS ≤ idleA feed r
    · rw [if_pos hstop]; rfl
    · rw [if_neg hstop]
      apply ih (r + 1) _ _ (by omega) (by simp [sizes]) (by simp)
      obtain ⟨R, h1, h2, h3⟩ := hex
      refine ⟨R, ?_, by omega, h3⟩
      rcases Nat.lt_or_ge r R with h | h
      · omega
      · exfalso
        have : R = r := by omega
        rw [this] at h3
        exact hstop h3

/-- A feed that stops growing keeps incrementing the idle counter. -/
theorem idleA_ge_of_stall (feed : Nat → List Anchor) (k : Nat)
    (hstab : ∀ j, k ≤ j → sizes feed (j + 1) ≤ sizes feed j) :
    ∀ m, m ≤ idleA feed (k + m) := by
  intro m
  induction m with
  | zero => exact Nat.zero_le _
  | succ m ih =>
    have hcond : sizes feed (k + m + 1) ≤ sizes feed (k + m) :=
      hstab (k + m) (by omega)
    have hstep : idleA feed (k + m + 1) = idleA feed (k + m) + 1 := by
      simp only [idleA]
      rw [if_pos hcond]
    show m + 1 ≤ idleA feed (k + m + 1)
    omega

/-- Claim C2: the loop maintains the idle counter (incremented on
no-growth rounds, reset on growth — the defining equations of idleA),
terminates exactly at the first round whose counter reaches the
threshold 6, never earlier, and on every feed that stops producing new
links after round k it does terminate (fuel k+6 suffices). -/
theorem claim_C2_idle_termination :
    ∀ (feed : Nat → List Anchor) (k : Nat),
      (∀ j, k ≤ j → sizes feed (j + 1) ≤ sizes feed j) →
      ∃ R res, collect_all_course_cards feed (k + 6) = some (res, R) ∧
        res = get_links_from_dom (feed R) ∧
        1 ≤ R ∧ R ≤ k + 6 ∧
        MAX_IDLE_SCROLLS ≤ idleA feed R ∧
        (∀ j, 1 ≤ j → j < R → idleA feed j < MAX_IDLE_SCROLLS) := by
  intro feed k hstab
  have hreach : MAX_IDLE_SCROLLS ≤ idleA feed (k + 6) := by
    have := idleA_ge_of_stall feed k hstab 6
    simpa [MAX_IDLE_SCROLLS] using this
  have hsome : (collect_all_course_cards feed (k + 6)).isSome = true := by
    apply collectLoop_complete feed (k + 6) 1 _ _ (Nat.le_refl 1) rfl rfl
    exact ⟨k + 6, by omega, by omega, hreach⟩
  obtain ⟨⟨res, R⟩, hout⟩ := Option.isSome_iff_exists.mp hsome
  have hs := collectLoop_sound feed (k + 6) 1 _ _ res R (Nat.le_refl 1) rfl rfl hout
  refine ⟨R, res, hout, hs.2.1, hs.1, ?_, hs.2.2.1, ?_⟩
  · by_contra hgt
    have hj := hs.2.2.2 (k + 6) (by omega) (by omega)
    omega
  · intro j h1 h2
    exact hs.2.2.2 j h1 h2

/-- Witness for claim C2: the constant empty feed stalls from round 0, so
discovery terminates (at round 6, the first with six idle rounds). -/
theorem claim_C2_witness :
    ∃ R res, collect_all_course_cards (fun _ => []) (0 + 6) = some (res, R) ∧
      res = get_links_from_dom ((fun (_ : Nat) => ([] : List Anchor)) R) ∧
      1 ≤ R ∧ R ≤ 0 + 6 ∧
      MAX_IDLE_SCROLLS ≤ idleA (fun _ => []) R ∧
      (∀ j, 1 ≤ j → j < R → idleA (fun _ => []) j < MAX_IDLE_SCROLLS) :=
  claim_C2_idle_termination (fun _ => []) 0 (fun _ _ => Nat.le_refl _)

/-! ## Claim C3: global id resequencing (main.py lines 452-454) -/

/-- Little-endian decimal digits. -/
def toDigitsRev : Nat → List Nat
  | 0 => []
  | n + 1 => ((n + 1) % 10) :: toDigitsRev ((n + 1) / 10)
decreasing_by exact Nat.div_lt_self (Nat.succ_pos _) (by decide)

def digitChar (d : Nat) : Char := Char.ofNat (48 + d)

/-- Decimal numeral of a natural number. -/
def decRepr (n : Nat) : List Char :=
  if n = 0 then ['0'] else ((toDigitsRev n).map digitChar).reverse

/-- Zero-padding to a minimum width, Python format 0Nd. -/
def padZeros (w : Nat) (l : List Char) : List Char :=
  List.replicate (w - l.length) '0' ++ l

/-- f-string C followed by i zero-padded to 5 digits. -/
def formatGlobalId (i : Nat) : String := String.mk ('C' :: padZeros 5 (decRepr i))

/-- The provisional per-keyword id, C followed by 4 digits (main.py 417). -/
def formatLocalId (i : Nat) : String := String.mk ('C' :: padZeros 4 (decRepr i))

/-- One output row of the scraper. -/
structure Row where
  course_id : String
  programming_language : String
  course_name : String
  course_duration : String
  concepts : String
  course_level : String
  course_link : String

/-- enumerate(all_rows, start=i): overwrite each course_id in order. -/
def resequenceFrom : Nat → List Row → List Row
  | _, [] => []
  | i, row :: rest => { row with course_id := formatGlobalId i } :: resequenceFrom (i + 1) rest

/-- The global resequencing pass, started at 1. -/
def resequence_ids (rows : List Row) : List Row := resequenceFrom 1 rows

/-! Injectivity of the id format, by evaluating the padded numeral back. -/

def dval (c : Char) : Nat := c.toNat - 48

def valD (l : List Char) : Nat := l.foldl (fun a c => 10 * a + dval c) 0

theorem valD_replicate_zeros : ∀ (m : Nat) (l : List Char),
    valD (List.replicate m '0' ++ l) = valD l := by
  intro m
  induction m with
  | zero => intro l; rfl
  | succ m ih =>
    intro l
    have : List.replicate (m + 1) '0' ++ l = '0' :: (List.replicate m '0' ++ l) := by
      simp [List.replicate]
    rw [this]
    show valD (List.replicate m '0' ++ l) = valD l
    exact ih l

theorem toDigitsRev_lt : ∀ n, ∀ d ∈ toDigitsRev n, d < 10 := by
  intro n
  induction n using Nat.strong_induction_on with
  | _ n ih =>
    cases n with
    | zero => intro d hd; simp [toDigitsRev] at hd
    | succ m =>
      intro d hd
      simp only [toDigitsRev] at hd
      rcases List.mem_cons.mp hd with h | h
      · subst h; exact Nat.mod_lt _ (by decide)
      · exact ih ((m + 1) / 10) (Nat.div_lt_self (Nat.succ_pos m) (by decide)) d h

theorem valRev_toDigitsRev : ∀ n : Nat,
    (toDigitsRev n).foldr (fun d acc => 10 * acc + d) 0 = n := by
  intro n
  induction n using Nat.strong_induction_on with
  | _ n ih =>
    cases n with
    | zero => simp [toDigitsRev]
    | succ m =>
      simp only [toDigitsRev, List.foldr_cons]
      rw [ih ((m + 1) / 10) (Nat.div_lt_self (Nat.succ_pos m) (by decide))]
      omega

theorem dval_digitChar {d : Nat} (h : d < 10) : dval (digitChar d) = d := by
  interval_cases d <;> decide

theorem valD_decRepr : ∀ n : Nat, valD (decRepr n) = n := by
  intro n
  by_cases h0 : n = 0
  · subst h0; decide
  · unfold decRepr
    rw [if_neg h0]
    unfold valD
    rw [List.foldl_reverse]
    rw [List.foldr_map]
    have : ((toDigitsRev n).foldr (fun d acc => 10 * acc + dval (digitChar d)) 0) =
        ((toDigitsRev n).foldr (fun d acc => 10 * acc + d) 0) := by
      apply List.foldr_ext
      intro d hd acc
      rw [dval_digitChar (toDigitsRev_lt n d hd)]
    rw [this, valRev_toDigitsRev]

theorem formatGlobalId_inj : Function.Injective formatGlobalId := by
  intro m n h
  unfold formatGlobalId at h
  injection h with hdata
  injection hdata with _ h2
  have hm : valD (padZeros 5 (decRepr m)) = m := by
    unfold padZeros
    rw [valD_replicate_zeros, valD_decRepr]
  have hn : valD (padZeros 5 (decRepr n)) = n := by
    unfold padZeros
    rw [valD_replicate_zeros, valD_decRepr]
  rw [← hm, ← hn, h2]

theorem resequenceFrom_getElem? : ∀ (rows : List Row) (i j : Nat),
    (resequenceFrom i rows)[j]? =
      rows[j]?.map (fun row => { row with course_id := formatGlobalId (i + j) }) := by
  intro rows
  induction rows with
  | nil => intro i j; simp [resequenceFrom]
  | cons row rest ih =>
    intro i j
    cases j with
    | zero => simp [resequenceFrom]
    | succ j' =>
      simp only [resequenceFrom, List.getElem?_cons_succ]
      rw [ih (i + 1) j']
      have : i + 1 + j' = i + (j' + 1) := by omega
      rw [this]

theorem resequenceFrom_length : ∀ (rows : List Row) (i : Nat),
    (resequenceFrom i rows).length = rows.length := by
  intro rows
  induction rows with
  | nil => intro i; rfl
  | cons row rest ih =>
    intro i
    simp only [resequenceFrom, List.length_cons]
    rw [ih (i + 1)]

/-- Claim C3: after all keyword passes, one global pass overwrites each
accumulated record's id in order with C plus the 1-based position
zero-padded to five digits, keeping every other field; the resulting ids
are the contiguous sequence C00001, C00002, ... and are pairwise
distinct, independently of the per-keyword provisional ids. -/
theorem claim_C3_resequencing :
    ∀ perKeyword : List (List Row),
      (resequence_ids perKeyword.flatten).length = perKeyword.flatten.length ∧
      (∀ j : Nat, (resequence_ids perKeyword.flatten)[j]? =
        (perKeyword.flatten[j]?).map
          (fun row => { row with course_id := formatGlobalId (j + 1) })) ∧
      ((resequence_ids perKeyword.flatten).map Row.course_id).Nodup := by
  intro perKeyword
  refine ⟨resequenceFrom_length _ 1, ?_, ?_⟩
  · intro j
    rw [show resequence_ids perKeyword.flatten = resequenceFrom 1 perKeyword.flatten from rfl]
    rw [resequenceFrom_getElem? perKeyword.flatten 1 j]
    have : 1 + j = j + 1 := by omega
    rw [this]
  · have hext : (resequence_ids perKeyword.flatten).map Row.course_id =
        (List.range perKeyword.flatten.length).map (fun j => formatGlobalId (j + 1)) := by
      apply List.ext_getElem?
      intro j
      rw [List.getElem?_map, List.getElem?_map]
      rw [show resequence_ids perKeyword.flatten = resequenceFrom 1 perKeyword.flatten from rfl]
      rw [resequenceFrom_getElem? perKeyword.flatten 1 j]
      cases hj : perKeyword.flatten[j]? with
      | none =>
        have hge : perKeyword.flatten.length ≤ j := by
          by_contra hlt
          rw [List.getElem?_eq_getElem (by omega)] at hj
          simp at hj
        rw [List.getElem?_eq_none (by simpa using hge)]
        rfl
      | some row =>
        have hlt : j < perKeyword.flatten.length := by
          by_contra hge
          rw [List.getElem?_eq_none (by omega)] at hj
          simp at hj
        rw [List.getElem?_range hlt]
        have h1j : 1 + j = j + 1 := by omega
        rw [h1j]
        rfl
    rw [hext]
    apply List.Nodup.map
    · intro a b hab
      have := formatGlobalId_inj hab
      omega
    · exact List.nodup_range _

/-- Two records with arbitrary provisional ids from one keyword and three
from another. -/
def exRow (cid lang name : String) : Row :=
  { course_id := cid, programming_language := lang, course_name := name,
    course_duration := "N/A", concepts := "N/A", course_level := "N/A",
    course_link := name }

/-- Witness for claim C3: five accumulated records get C00001..C00005 by
applying the claim theorem. -/
theorem claim_C3_witness :
    ((resequence_ids ([[exRow "C0001" "Java" "a", exRow "C0002" "Java" "b"],
        [exRow "C0001" "Python" "c", exRow "C0002" "Python" "d",
         exRow "C0003" "Python" "e"]] : List (List Row)).flatten).map
      Row.course_id).Nodup :=
  (claim_C3_resequencing _).2.2

/-! ## Claim C6: per-link retry policy (main.py lines 401-438) -/

/-- Retry budget for transient failures on a course detail page
(main.py line 28). -/
def RETRY_DETAIL : Nat := 2

/-- Outcome of one navigation-and-extraction attempt on a detail page:
success carries the parsed (duration, level, concepts) triple; a
TimeoutException or WebDriverException is `transient`; any other exception
is `hardFail`. -/
inductive Outcome where
  | ok (duration level : Option String) (concepts : List String)
  | transient
  | hardFail

/-- The `while tries <= RETRY_DETAIL` loop of `scrape_language` (main.py
lines 407-435): run attempt `b tries`; on success return the parsed triple,
on a transient failure increment `tries` and loop, on any other exception
stop with no result.  `fuel` bounds the recursion; `RETRY_DETAIL + 2` steps
always suffice because `tries` grows by one per iteration. -/
def tryGo (b : Nat → Outcome) :
    Nat → Nat → Option (Option String × Option String × List String)
  | _, 0 => none
  | tries, fuel + 1 =>
    if RETRY_DETAIL < tries then none
    else
      match b tries with
      | Outcome.ok d lev cs => some (d, lev, cs)
      | Outcome.transient => tryGo b (tries + 1) fuel
      | Outcome.hardFail => none

/-- Result of processing one link: the retry loop started at `tries = 0`. -/
def tryLink (b : Nat → Outcome) :
    Option (Option String × Option String × List String) :=
  tryGo b 0 (RETRY_DETAIL + 2)

/-- Number of navigation attempts the retry loop performs. -/
def attemptsGo (b : Nat → Outcome) : Nat → Nat → Nat
  | _, 0 => 0
  | tries, fuel + 1 =>
    if RETRY_DETAIL < tries then 0
    else
      match b tries with
      | Outcome.transient => 1 + attemptsGo b (tries + 1) fuel
      | _ => 1

/-- Attempts performed for one link. -/
def attemptsUsed (b : Nat → Outcome) : Nat :=
  attemptsGo b 0 (RETRY_DETAIL + 2)

/-- The retry loop only ever inspects attempts 0, 1 and 2. -/
theorem tryLink_eval (b : Nat → Outcome) :
    tryLink b =
      match b 0 with
      | Outcome.ok d lev cs => some (d, lev, cs)
      | Outcome.transient =>
        match b 1 with
        | Outcome.ok d lev cs => some (d, lev, cs)
        | Outcome.transient =>
          match b 2 with
          | Outcome.ok d lev cs => some (d, lev, cs)
          | Outcome.transient => none
          | Outcome.hardFail => none
        | Outcome.hardFail => none
      | Outcome.hardFail => none := rfl

/-- Closed form of the attempt counter. -/
theorem attemptsUsed_eval (b : Nat → Outcome) :
    attemptsUsed b =
      match b 0 with
      | Outcome.transient =>
        1 + (match b 1 with
          | Outcome.transient =>
            1 + (match b 2 with
              | Outcome.transient => 1 + 0
              | _ => 1)
          | _ => 1)
      | _ => 1 := rfl

/-- Python truthiness fallback `x or "N/A"` applied to an optional string:
`None` and the empty string both give "N/A" (main.py lines 419, 421). -/
def optNA : Option String → String
  | none => "N/A"
  | some s => if s.isEmpty then "N/A" else s

/-- The record built for a successfully extracted detail page (main.py
lines 415-423); `seq` is `len(data) + 1` at the call site. -/
def mkRow (language : String) (seq : Nat) (title link : String)
    (d lev : Option String) (cs : List String) : Row :=
  { course_id := formatLocalId seq,
    programming_language := language,
    course_name := clean_text (some title),
    course_duration := optNA d,
    concepts := if cs.isEmpty then "N/A" else String.intercalate "; " cs,
    course_level := optNA lev,
    course_link := link }

/-- The per-link loop of `scrape_language` (main.py lines 401-438): skip an
already-seen link, otherwise run the retry loop; a successful link appends
one record with provisional id `C{len(data)+1:04d}`, a failed link appends
nothing, and either way the run continues with the remaining links. -/
def scrapeGo (language : String) (beh : String → Nat → Outcome) :
    List (String × String) → List String → List Row → List Row
  | [], _, data => data
  | (title, link) :: rest, seen, data =>
    if seen.contains link then scrapeGo language beh rest seen data
    else
      match tryLink (beh link) with
      | some (d, lev, cs) =>
          scrapeGo language beh rest (seen ++ [link])
            (data ++ [mkRow language (data.length + 1) title link d lev cs])
      | none => scrapeGo language beh rest (seen ++ [link]) data

/-- `scrape_language` (main.py line 388): process every discovered link
starting from an empty seen-set and no accumulated records. -/
def scrape_language (language : String) (beh : String → Nat → Outcome)
    (links : List (String × String)) : List Row :=
  scrapeGo language beh links [] []

/-- One unfolding step of the per-link loop. -/
theorem scrapeGo_cons (language : String) (beh : String → Nat → Outcome)
    (title link : String) (rest : List (String × String))
    (seen : List String) (data : List Row) :
    scrapeGo language beh ((title, link) :: rest) seen data =
      if seen.contains link then scrapeGo language beh rest seen data
      else
        match tryLink (beh link) with
        | some (d, lev, cs) =>
            scrapeGo language beh rest (seen ++ [link])
              (data ++ [mkRow language (data.length + 1) title link d lev cs])
        | none => scrapeGo language beh rest (seen ++ [link]) data := rfl

/-- Claim C6: the scrape driver makes at most `1 + RETRY_DETAIL = 3`
navigation-and-extraction attempts per link.  After any run of transient
failures, a success on attempt `k` returns its parsed triple and a
non-transient failure stops with no result, in both cases after exactly
`k + 1` attempts (so only transient failures trigger a further attempt);
exhausting all attempts on transient failures yields no result; and a link
whose retry loop yields no result contributes no record to the output while
the run continues with the remaining links, whereas a successful link
appends exactly one record. -/
theorem claim_C6_retry (b : Nat → Outcome) :
    attemptsUsed b ≤ 1 + RETRY_DETAIL ∧
    (∀ k, k ≤ RETRY_DETAIL → (∀ j, j < k → b j = Outcome.transient) →
      (∀ d lev cs, b k = Outcome.ok d lev cs →
        tryLink b = some (d, lev, cs) ∧ attemptsUsed b = k + 1) ∧
      (b k = Outcome.hardFail →
        tryLink b = none ∧ attemptsUsed b = k + 1)) ∧
    ((∀ j, j ≤ RETRY_DETAIL → b j = Outcome.transient) →
      tryLink b = none ∧ attemptsUsed b = 1 + RETRY_DETAIL) ∧
    (∀ (language title link : String) (beh : String → Nat → Outcome)
        (rest : List (String × String)) (seen : List String)
        (data : List Row),
      seen.contains link = false →
      (tryLink (beh link) = none →
        scrapeGo language beh ((title, link) :: rest) seen data =
          scrapeGo language beh rest (seen ++ [link]) data) ∧
      (∀ d lev cs, tryLink (beh link) = some (d, lev, cs) →
        scrapeGo language beh ((title, link) :: rest) seen data =
          scrapeGo language beh rest (seen ++ [link])
            (data ++ [mkRow language (data.length + 1) title link d lev cs]))) := by
  refine ⟨?_, ?_, ?_, ?_⟩
  · rw [attemptsUsed_eval]
    cases h0 : b 0 <;> cases h1 : b 1 <;> cases h2 : b 2 <;>
      simp [RETRY_DETAIL]
  · intro k hk hprev
    have hk2 : k ≤ 2 := hk
    interval_cases k
    · constructor
      · intro d lev cs h0
        exact ⟨by rw [tryLink_eval]; simp only [h0],
               by rw [attemptsUsed_eval]; simp only [h0]⟩
      · intro h0
        exact ⟨by rw [tryLink_eval]; simp only [h0],
               by rw [attemptsUsed_eval]; simp only [h0]⟩
    · have h0 := hprev 0 (by decide)
      constructor
      · intro d lev cs h1
        exact ⟨by rw [tryLink_eval]; simp only [h0, h1],
               by rw [attemptsUsed_eval]; simp only [h0, h1]⟩
      · intro h1
        exact ⟨by rw [tryLink_eval]; simp only [h0, h1],
               by rw [attemptsUsed_eval]; simp only [h0, h1]⟩
    · have h0 := hprev 0 (by decide)
      have h1 := hprev 1 (by decide)
      constructor
      · intro d lev cs h2
        exact ⟨by rw [tryLink_eval]; simp only [h0, h1, h2],
               by rw [attemptsUsed_eval]; simp only [h0, h1, h2]⟩
      · intro h2
        exact ⟨by rw [tryLink_eval]; simp only [h0, h1, h2],
               by rw [attemptsUsed_eval]; simp only [h0, h1, h2]⟩
  · intro hall
    have h0 := hall 0 (by decide)
    have h1 := hall 1 (by decide)
    have h2 := hall 2 (by decide)
    exact ⟨by rw [tryLink_eval]; simp only [h0, h1, h2],
           by rw [attemptsUsed_eval]; simp only [h0, h1, h2]; decide⟩
  · intro language title link beh rest seen data hseen
    constructor
    · intro hfail
      rw [scrapeGo_cons, if_neg (by rw [hseen]; exact Bool.false_ne_true)]
      simp only [hfail]
    · intro d lev cs hok
      rw [scrapeGo_cons, if_neg (by rw [hseen]; exact Bool.false_ne_true)]
      simp only [hok]

/-- Witness for claim C6: a behaviour that raises a non-transient exception
on the first attempt yields no result after exactly one attempt, and the
link contributes no record to `scrape_language`. -/
theorem claim_C6_witness :
    tryLink (fun _ => Outcome.hardFail) = none ∧
    attemptsUsed (fun _ => Outcome.hardFail) = 1 ∧
    scrape_language "Python" (fun _ _ => Outcome.hardFail)
      [("Course", "https://www.coursera.org/learn/x")] = [] := by
  have h := claim_C6_retry (fun _ => Outcome.hardFail)
  have h2 := (h.2.1 0 (by decide) (fun j hj => absurd hj (Nat.not_lt_zero j))).2 rfl
  refine ⟨h2.1, h2.2, ?_⟩
  have h4 := (h.2.2.2 "Python" "Course" "https://www.coursera.org/learn/x"
    (fun _ _ => Outcome.hardFail) [] [] [] (by decide)).1 h2.1
  exact h4.trans rfl

end Scraper
